import Mathlib

/-!
Shallow embedding of the `make-migrations` tool (src/index.js and the unnamed
variant src/unnamed/part_000, which share the same diff engine).

JavaScript objects are modelled as insertion-ordered association lists with
unique keys; `obj[k] = v` updates the first occurrence in place (keeping the
position) or appends, `delete obj[k]` removes, `Object.entries` iterates in
list order.  The in-place mutation of the snapshot during the diff pass is
made explicit as state threading, and the transient `nextColumnName` property
attached to matched column objects is an explicit optional field.
-/

namespace MakeMigrations

/-- JS object property read (`obj[k]`), first matching key. -/
def lookupKey {α : Type} : List (String × α) → String → Option α
  | [], _ => none
  | (k, v) :: rest, q => if k = q then some v else lookupKey rest q

/-- JS object property write (`obj[k] = v`): replace in place or append. -/
def setKey {α : Type} : List (String × α) → String → α → List (String × α)
  | [], q, v => [(q, v)]
  | (k, w) :: rest, q, v => if k = q then (q, v) :: rest else (k, w) :: setKey rest q v

/-- JS `delete obj[k]`. -/
def delKey {α : Type} (m : List (String × α)) (q : String) : List (String × α) :=
  m.filter (fun e => e.1 ≠ q)

/-- Truthiness of an object property (`if (obj[k])`): values are objects. -/
def hasKey {α : Type} (m : List (String × α)) (q : String) : Bool :=
  (lookupKey m q).isSome

/-- One column's description as built by `getModelColumns` and stored in
`meta.json`.  Absent JSON fields are `none`.  `nextColumnName` is the
transient marker the diff pass attaches to matched prior entries. -/
structure ColumnDef where
  type : String
  allowNull : Option Bool := none
  unique : Option Bool := none
  primaryKey : Option Bool := none
  autoIncrement : Option Bool := none
  prevColumnName : Option String := none
  defaultValue : Option String := none
  nextColumnName : Option String := none
deriving DecidableEq

/-- A table's column mapping (`metaData[tableName]`, `modelColumns`). -/
abbrev ColMap := List (String × ColumnDef)

/-- The persisted snapshot: table name to column mapping (`metaData`). -/
abbrev Snapshot := List (String × ColMap)

/-- One direction of `deep-equal` on objects. -/
def subMapOf (a b : ColMap) : Bool :=
  a.all (fun e => decide (lookupKey b e.1 = some e.2))

/-- The `equal(a, b)` comparison from the `deep-equal` package on two column mappings:
key-order-insensitive comparison. -/
def mapEquiv (a b : ColMap) : Bool := subMapOf a b && subMapOf b a

/-- The `columns` classification record of `getRawMigrations`
(`columns.new`, `columns.change`, `columns.rename`, `columns.remove`). -/
structure Buckets where
  newCols : List (String × ColumnDef) := []
  changeCols : List (String × ColumnDef) := []
  renameCols : List (String × ColumnDef) := []
  removeCols : List String := []
deriving DecidableEq

def emptyBuckets : Buckets := {}

/-- One iteration of the forward pass of `getRawMigrations` over a current
column `(n, d)`.  In the unchanged case the matched prior object receives the
`nextColumnName` marker while still stored in the map; in the changed case
the map entry is replaced first, so the marker lands on a detached object and
the map is unaffected.  A truthy but unresolvable `prevColumnName` hint takes
the `else if` branch and classifies nothing. -/
def diffStep (st : ColMap) (bk : Buckets) (n : String) (d : ColumnDef) :
    ColMap × Buckets :=
  match lookupKey st n with
  | some cur =>
    if cur = d then
      (setKey st n { cur with nextColumnName := some n }, bk)
    else
      (setKey st n d, { bk with changeCols := bk.changeCols ++ [(n, d)] })
  | none =>
    match d.prevColumnName with
    | some p =>
      if p = "" then
        (setKey st n d, { bk with newCols := bk.newCols ++ [(n, d)] })
      else
        match lookupKey st p with
        | some _ =>
          if n = p then (st, bk)
          else
            (setKey (delKey st p) n d,
             { bk with renameCols := bk.renameCols ++ [(n, d)] })
        | none => (st, bk)
    | none => (setKey st n d, { bk with newCols := bk.newCols ++ [(n, d)] })

def diffForwardAux : List (String × ColumnDef) → ColMap × Buckets → ColMap × Buckets
  | [], acc => acc
  | e :: rest, acc => diffForwardAux rest (diffStep acc.1 acc.2 e.1 e.2)

/-- The whole forward pass: fold `diffStep` over the current columns,
starting from the prior snapshot entry and empty buckets. -/
def diffForward (cols prior : ColMap) : ColMap × Buckets :=
  diffForwardAux cols (prior, emptyBuckets)

/-- Truthiness of `modelColumns[options.nextColumnName]`.  Column names that
collide with the string rendering of `undefined` are not modelled: when the
marker is absent the lookup misses. -/
def nextPresent (cols : ColMap) (v : ColumnDef) : Bool :=
  match v.nextColumnName with
  | some m => hasKey cols m
  | none => false

/-- The removal loop of `getRawMigrations`: iterate the post-forward-pass
entries, delete entries still present under neither their own name nor their
tracked next name, and strip the transient marker from the kept ones. -/
def removalAux (cols : ColMap) :
    List (String × ColumnDef) → ColMap → List String → ColMap × List String
  | [], st, rem => (st, rem)
  | (k, v) :: rest, st, rem =>
    if ¬ hasKey cols k ∧ ¬ nextPresent cols v then
      removalAux cols rest (delKey st k) (rem ++ [k])
    else
      removalAux cols rest (setKey st k { v with nextColumnName := none }) rem

def removalPass (cols post : ColMap) : ColMap × List String :=
  removalAux cols post post []

/-- The removal loop with the next-name disjunct dropped, as the spec's
"consumed-set design" open question proposes: an entry is deleted exactly
when its own name is absent from the current columns. -/
def removalSimpleAux (cols : ColMap) :
    List (String × ColumnDef) → ColMap → List String → ColMap × List String
  | [], st, rem => (st, rem)
  | (k, v) :: rest, st, rem =>
    if ¬ hasKey cols k then
      removalSimpleAux cols rest (delKey st k) (rem ++ [k])
    else
      removalSimpleAux cols rest (setKey st k { v with nextColumnName := none }) rem

def removalSimplePass (cols post : ColMap) : ColMap × List String :=
  removalSimpleAux cols post post []

/-- A `queryInterface` call rendered into a migration file, with its
interpolated arguments.  A `none` definition payload renders as the
JavaScript `undefined` text. -/
inductive Op where
  | createTable (table : String) (columns : ColMap)
  | dropTable (table : String)
  | addColumn (table column : String) (definition : Option ColumnDef)
  | removeColumn (table column : String)
  | changeColumn (table column : String) (definition : Option ColumnDef)
  | renameColumn (table fromName toName : String) (definition : Option ColumnDef)
deriving DecidableEq

/-- One generated migration: the pushed `{label, content}` value, with the
content's up/down call sequences kept structured. -/
structure RawMigration where
  label : String
  up : List Op
  down : List Op
deriving DecidableEq

deriving instance DecidableEq for Except

def buildNewMig (t : String) (cs : List (String × ColumnDef)) : List RawMigration :=
  if cs.isEmpty then []
  else
    [{ label := if cs.length > 1 then "add-columns-to" else "add-column-to",
       up := cs.map (fun e => Op.addColumn t e.1 (some e.2)),
       down := cs.map (fun e => Op.removeColumn t e.1) }]

def buildChangeMig (t : String) (frozen : ColMap) (cs : List (String × ColumnDef)) :
    List RawMigration :=
  if cs.isEmpty then []
  else
    [{ label := if cs.length > 1 then "change-columns-to" else "change-column-to",
       up := cs.map (fun e => Op.changeColumn t e.1 (some e.2)),
       down := cs.map (fun e => Op.changeColumn t e.1 (lookupKey frozen e.1)) }]

/-- The string interpolated for `modelColumns[columnName].prevColumnName`. -/
def prevNameOf (cols : ColMap) (n : String) : String :=
  match lookupKey cols n with
  | some d =>
    match d.prevColumnName with
    | some p => p
    | none => "undefined"
  | none => "undefined"

def buildRenameMig (t : String) (frozen cols : ColMap)
    (cs : List (String × ColumnDef)) : List RawMigration :=
  if cs.isEmpty then []
  else
    [{ label := if cs.length > 1 then "rename-columns-to" else "rename-column-to",
       up := cs.map (fun e => Op.renameColumn t (prevNameOf cols e.1) e.1 (some e.2)),
       down := cs.map (fun e =>
         Op.renameColumn t e.1 (prevNameOf cols e.1)
           (lookupKey frozen (prevNameOf cols e.1))) }]

def buildRemoveMig (t : String) (frozen : ColMap) (ns : List String) :
    List RawMigration :=
  if ns.isEmpty then []
  else
    [{ label := if ns.length > 1 then "remove-columns-from" else "remove-column-from",
       up := ns.map (fun n => Op.removeColumn t n),
       down := ns.map (fun n => Op.addColumn t n (lookupKey frozen n)) }]

/-- The non-initial, non-equal branch of `getRawMigrations`: run the passes
and assemble the per-bucket migrations.  `prior` doubles as
`freezeMetaDataByTableName`, the deep copy taken before any mutation. -/
def diffBody (t : String) (cols prior : ColMap) : List RawMigration × ColMap :=
  let fwd := diffForward cols prior
  let rp := removalPass cols fwd.1
  (buildNewMig t fwd.2.newCols ++
     buildChangeMig t prior fwd.2.changeCols ++
     buildRenameMig t prior cols fwd.2.renameCols ++
     buildRemoveMig t prior rp.2,
   rp.1)

/-- The diff engine `getRawMigrations`: returns the thrown value or the migration list, plus
the state of `metaData` after the call (the JS function mutates it in
place; the `'no change'` throw happens before any mutation). -/
def getRawMigrations (t : String) (cols : ColMap) (meta : Snapshot) :
    Except String (List RawMigration) × Snapshot :=
  match lookupKey meta t with
  | some metaTable =>
    if mapEquiv metaTable cols then (Except.error "no change", meta)
    else
      (Except.ok (diffBody t cols metaTable).1,
       setKey meta t (diffBody t cols metaTable).2)
  | none =>
    (Except.ok
       [{ label := "initial",
          up := [Op.createTable t cols],
          down := [Op.dropTable t] }],
     setKey meta t cols)

/-- The fixed `baseColumns.id` definition. -/
def baseIdCol : ColumnDef :=
  { type := "DataTypes.INTEGER", allowNull := some false,
    autoIncrement := some true, primaryKey := some true }

def baseCreatedAtCol : ColumnDef :=
  { type := "DataTypes.DATE", allowNull := some false }

def baseUpdatedAtCol : ColumnDef :=
  { type := "DataTypes.DATE", allowNull := some false }

def baseDeletedAtCol : ColumnDef :=
  { type := "DataTypes.DATE" }

/-- The `baseColumns` object of `getModelColumns`. -/
def baseColumns : List (String × ColumnDef) :=
  [("id", baseIdCol), ("createdAt", baseCreatedAtCol),
   ("updatedAt", baseUpdatedAtCol), ("deletedAt", baseDeletedAtCol)]

/-- One declared attribute as consumed by `getModelColumns`:
`typeName` stands for `options.type.constructor.name`, `field` for the
physical column name. -/
structure AttrOptions where
  typeName : String
  field : String
  allowNull : Option Bool := none
  unique : Option Bool := none
  primaryKey : Option Bool := none
  prevColumnName : Option String := none
  defaultValue : Option String := none
deriving DecidableEq

structure ModelOptions where
  tableName : String
  autoMigrations : Bool := false
  timestamps : Bool := false
  paranoid : Bool := false
deriving DecidableEq

structure Model where
  options : ModelOptions
  attributes : List (String × AttrOptions)
deriving DecidableEq

/-- The column object built for one persisted attribute:
`allowNull` is set only on a strict `=== false` declaration; `undefined`
fields disappear in the JSON round-trip, hence `none`. -/
def attrToCol (a : AttrOptions) : ColumnDef :=
  { type := "DataTypes." ++ a.typeName,
    allowNull := if a.allowNull = some false then some false else none,
    unique := a.unique,
    primaryKey := a.primaryKey,
    prevColumnName := a.prevColumnName,
    defaultValue := a.defaultValue }

/-- The attribute loop body of `getModelColumns`: reserved implicit names are
skipped, `VIRTUAL` types produce no column, everything else is keyed by its
physical field name. -/
def processAttr (acc : ColMap) (e : String × AttrOptions) : ColMap :=
  if (baseColumns.map Prod.fst).contains e.1 then acc
  else if e.2.typeName = "VIRTUAL" then acc
  else setKey acc e.2.field (attrToCol e.2)

/-- The extractor `getModelColumns`: implicit `id`, declared attributes, then the
timestamp and soft-delete columns forced by the table options.  The final
JSON round-trip is the identity under value semantics. -/
def getModelColumns (model : Model) : ColMap :=
  let cols0 : ColMap :=
    if hasKey model.attributes "id" then [("id", baseIdCol)] else []
  let cols1 := model.attributes.foldl processAttr cols0
  let cols2 :=
    if model.options.timestamps then
      setKey (setKey cols1 "createdAt" baseCreatedAtCol) "updatedAt" baseUpdatedAtCol
    else cols1
  if model.options.paranoid then setKey cols2 "deletedAt" baseDeletedAtCol
  else cols2

/-- Character-list prefix test. -/
def isPrefixL : List Char → List Char → Bool
  | [], _ => true
  | _ :: _, [] => false
  | p :: ps, c :: cs => p = c && isPrefixL ps cs

/-- JS `String.prototype.replaceAll` with a non-empty pattern: scan left to
right, non-overlapping.  The fuel starts at the subject length and each step
consumes at least one character, so it never runs out. -/
def replaceGo (pat rep : List Char) : Nat → List Char → List Char
  | 0, s => s
  | _ + 1, [] => []
  | fuel + 1, c :: cs =>
    if isPrefixL pat (c :: cs) then
      rep ++ replaceGo pat rep fuel (List.drop (pat.length - 1) cs)
    else c :: replaceGo pat rep fuel cs

def replaceAllL (s pat rep : List Char) : List Char :=
  if pat.isEmpty then s else replaceGo pat rep s.length s

/-- Whitespace test standing for `\s`, covering the characters that occur in rendered content. -/
def isWsChar (c : Char) : Bool :=
  c = ' ' || c = '\n' || c = '\t' || c = '\r'

/-- Leading-prefix strip, reporting the remainder on success. -/
def stripPrefixL : List Char → List Char → Option (List Char)
  | [], s => some s
  | _ :: _, [] => none
  | p :: ps, c :: cs => if p = c then stripPrefixL ps cs else none

/-- Index of the last occurrence of a character. -/
def lastIdxOf (ch : Char) : List Char → Option Nat
  | [] => none
  | c :: cs =>
    match lastIdxOf ch cs with
    | some j => some (j + 1)
    | none => if c = ch then some 0 else none

/-- Match the regex `"type":\s+("DataTypes.+")` at the start of the text:
the literal key, at least one whitespace character, then the capture group,
whose greedy `.+"` extends to the last quote on the line with at least one
character before it.  Returns the captured token and the text after the
whole match. -/
def matchTypeAt (s : List Char) : Option (List Char × List Char) :=
  match stripPrefixL ("\"type\":".data) s with
  | none => none
  | some r0 =>
    let ws := r0.takeWhile isWsChar
    let r1 := r0.dropWhile isWsChar
    if ws.isEmpty then none
    else
      match stripPrefixL ("\"DataTypes".data) r1 with
      | none => none
      | some r2 =>
        let line := r2.takeWhile (fun c => c ≠ '\n')
        let after := r2.dropWhile (fun c => c ≠ '\n')
        match lastIdxOf '\"' line with
        | none => none
        | some j =>
          if 1 ≤ j then
            some ("\"DataTypes".data ++ line.take (j + 1), line.drop (j + 1) ++ after)
          else none

/-- The `matchAll` scanning loop: on a failed attempt advance one character, on a
match continue after it.  A match consumes at least the seven characters of
the literal key, so length-much fuel suffices. -/
def collectGo : Nat → List Char → List (List Char)
  | 0, _ => []
  | _ + 1, [] => []
  | fuel + 1, c :: cs =>
    match matchTypeAt (c :: cs) with
    | some (tok, rest) => tok :: collectGo fuel rest
    | none => collectGo fuel cs

def collectTypes (s : List Char) : List (List Char) :=
  collectGo s.length s

/-- JS `[...new Set(..)]`: deduplicate keeping first occurrences. -/
def dedupFirst (l : List (List Char)) : List (List Char) :=
  l.foldl (fun acc t => if t ∈ acc then acc else acc ++ [t]) []

/-- Quote stripping, `type.replaceAll` of each quote with nothing. -/
def stripQuotesL (l : List Char) : List Char :=
  l.filter (fun c => c ≠ '\"')

/-- Join a list of segments with a separator between consecutive segments. -/
def joinWith (sep : List Char) : List (List Char) → List Char
  | [] => []
  | [x] => x
  | x :: y :: xs => x ++ sep ++ joinWith sep (y :: xs)

/-- Splitting of a text at the left-to-right non-overlapping occurrences of
a pattern, mirroring the scan of `replaceGo`: the result lists the
non-matching segments lying before, between and after the occurrences, so
that joining the segments with the pattern restores the text and joining
them with a replacement performs the rewrite of every occurrence. -/
def splitTokGo (pat : List Char) : Nat → List Char → List (List Char)
  | 0, s => [s]
  | _ + 1, [] => [[]]
  | fuel + 1, c :: cs =>
    if isPrefixL pat (c :: cs) then
      [] :: splitTokGo pat fuel (List.drop (pat.length - 1) cs)
    else
      match splitTokGo pat fuel cs with
      | [] => [[c]]
      | seg :: rest => (c :: seg) :: rest

def splitTok (s pat : List Char) : List (List Char) :=
  splitTokGo pat s.length s

/-- Contiguous-occurrence test: whether the pattern occurs anywhere in the
text as a consecutive run. -/
def containsSeq (pat : List Char) : List Char → Bool
  | [] => isPrefixL pat []
  | c :: cs => isPrefixL pat (c :: cs) || containsSeq pat cs

/-- The renderer pass `formatMigrationContent`: collect the quoted type tokens, deduplicate,
and rewrite each distinct token to its unquoted form across the whole
text. -/
def formatMigrationContent (s : String) : String :=
  let toks := dedupFirst (collectTypes s.data)
  String.mk (toks.foldl (fun acc t => replaceAllL acc t (stripQuotesL t)) s.data)

/-- Concrete column definitions used in the worked examples below. -/
def dStr : ColumnDef := { type := "DataTypes.STRING" }

def dInt : ColumnDef := { type := "DataTypes.INTEGER" }

def dIntWide : ColumnDef := { type := "DataTypes.BIGINT" }

/-- A column carrying a `prevColumnName` hint that matches no prior entry. -/
def dIntHintNope : ColumnDef :=
  { type := "DataTypes.INTEGER", prevColumnName := some "nope" }

/-- The `def1 with prevColumnName = 'email'` value from the rename example. -/
def dStrHintEmail : ColumnDef :=
  { type := "DataTypes.STRING", prevColumnName := some "email" }

def exPriorA : ColMap := [("A", dStr)]

def exColsAX : ColMap := [("A", dStr), ("X", dIntHintNope)]

def exMetaA : Snapshot := [("t", exPriorA)]

def exPriorEmail : ColMap := [("email", dStr)]

def exColsMail : ColMap := [("mail", dStrHintEmail)]

def exMetaEmail : Snapshot := [("t", exPriorEmail)]

/-- A three-column prior entry used for the change/rename/remove example. -/
def exPrior3 : ColMap := [("name", dStr), ("email", dStr), ("age", dInt)]

/-- Current columns changing `name`, renaming `email` to `mail`, and
dropping `age`. -/
def exCols3 : ColMap := [("name", dIntWide), ("mail", dStrHintEmail)]

def exMeta3 : Snapshot := [("t", exPrior3)]

def exAttrTitle : AttrOptions :=
  { typeName := "STRING", field := "title", allowNull := some true }

def exAttrId : AttrOptions := { typeName := "INTEGER", field := "id" }

def exModel : Model :=
  { options := { tableName := "posts", autoMigrations := true, timestamps := true },
    attributes := [("id", exAttrId), ("title", exAttrTitle)] }

/-- A rendered-content fragment with the same quoted type token twice and
unrelated quoted text. -/
def exContent : String :=
  "\"type\": \"DataTypes.INTEGER\",\n\"x\": 1,\n\"type\": \"DataTypes.INTEGER\",\n\"s\": \"keep\""

/-- Copy of `exContent` with both token occurrences unquoted and the rest intact. -/
def exFormatted : String :=
  "\"type\": DataTypes.INTEGER,\n\"x\": 1,\n\"type\": DataTypes.INTEGER,\n\"s\": \"keep\""

def exToken : List Char := "\"DataTypes.INTEGER\"".data

theorem lookupKey_setKey_self {α : Type} (m : List (String × α)) (k : String) (v : α) :
    lookupKey (setKey m k v) k = some v := by
  induction m with
  | nil => simp [setKey, lookupKey]
  | cons e rest ih =>
    by_cases h : e.1 = k
    · simp [setKey, h, lookupKey]
    · simp [setKey, h, lookupKey, ih]

theorem lookupKey_setKey_ne {α : Type} (m : List (String × α)) {k q : String} (v : α)
    (h : k ≠ q) : lookupKey (setKey m k v) q = lookupKey m q := by
  induction m with
  | nil => simp [setKey, lookupKey, h]
  | cons e rest ih =>
    by_cases he : e.1 = k
    · simp [setKey, he, lookupKey, h]
    · simp [setKey, he, lookupKey, ih]

theorem lookupKey_delKey {α : Type} (m : List (String × α)) (k q : String) :
    lookupKey (delKey m k) q = if q = k then none else lookupKey m q := by
  induction m with
  | nil => simp [delKey, lookupKey]
  | cons e rest ih =>
    by_cases he : e.1 = k
    · have hcons : delKey (e :: rest) k = delKey rest k := by
        simp [delKey, List.filter_cons, he]
      rw [hcons, ih]
      by_cases hq : q = k
      · simp [hq]
      · have hne : ¬ e.1 = q := by rw [he]; exact fun h => hq h.symm
        simp [hq, lookupKey, hne]
    · have hcons : delKey (e :: rest) k = e :: delKey rest k := by
        simp [delKey, List.filter_cons, he]
      rw [hcons]
      by_cases hq2 : e.1 = q
      · have hqk : ¬ q = k := fun h => he (hq2.trans h)
        simp [lookupKey, hq2, hqk]
      · simp [lookupKey, hq2, ih]

theorem mem_setKey {α : Type} {m : List (String × α)} {k q : String} {v w : α}
    (h : (q, w) ∈ setKey m k v) : (q, w) = (k, v) ∨ (q, w) ∈ m := by
  induction m with
  | nil => simpa [setKey] using h
  | cons e rest ih =>
    by_cases he : e.1 = k
    · simp [setKey, he] at h
      rcases h with h | h
      · exact Or.inl (by simp [h])
      · exact Or.inr (List.mem_cons_of_mem _ h)
    · simp [setKey, he] at h
      rcases h with h | h
      · exact Or.inr (by simp [h])
      · rcases ih h with h' | h'
        · exact Or.inl h'
        · exact Or.inr (List.mem_cons_of_mem _ h')

theorem mem_delKey {α : Type} {m : List (String × α)} {k q : String} {v : α}
    (h : (q, v) ∈ delKey m k) : (q, v) ∈ m ∧ q ≠ k := by
  have := List.of_mem_filter h
  refine ⟨List.mem_of_mem_filter h, by simpa using this⟩

theorem mem_setKey_nodup {α : Type} {m : List (String × α)} {k q : String} {v w : α}
    (hnodup : (m.map Prod.fst).Nodup) (h : (q, w) ∈ setKey m k v) :
    (q, w) = (k, v) ∨ ((q, w) ∈ m ∧ q ≠ k) := by
  induction m with
  | nil =>
    simp [setKey] at h
    exact Or.inl (by simp [h])
  | cons e rest ih =>
    obtain ⟨a, b⟩ := e
    simp only [List.map_cons, List.nodup_cons] at hnodup
    by_cases he : a = k
    · rw [show setKey ((a, b) :: rest) k v = (k, v) :: rest by simp [setKey, he]] at h
      rcases List.mem_cons.mp h with h' | h'
      · exact Or.inl h'
      · refine Or.inr ⟨List.mem_cons_of_mem _ h', ?_⟩
        intro hqk
        subst hqk
        subst he
        exact hnodup.1 (List.mem_map_of_mem Prod.fst h')
    · rw [show setKey ((a, b) :: rest) k v = (a, b) :: setKey rest k v by
        simp [setKey, he]] at h
      rcases List.mem_cons.mp h with h' | h'
      · have ha : q = a := congrArg Prod.fst h'
        refine Or.inr ⟨by simp [h'], ?_⟩
        rw [ha]
        exact he
      · rcases ih hnodup.2 h' with h'' | h''
        · exact Or.inl h''
        · exact Or.inr ⟨List.mem_cons_of_mem _ h''.1, h''.2⟩

theorem keys_setKey {α : Type} (m : List (String × α)) (k : String) (v : α)
    {q : String} (h : q ∈ (setKey m k v).map Prod.fst) :
    q ∈ m.map Prod.fst ∨ q = k := by
  simp only [List.mem_map] at h
  obtain ⟨e, he, rfl⟩ := h
  rcases e with ⟨a, b⟩
  rcases mem_setKey he with h' | h'
  · right; simpa using congrArg Prod.fst h'
  · left; exact List.mem_map_of_mem Prod.fst h'

theorem hasKey_iff_mem_keys {α : Type} (m : List (String × α)) (q : String) :
    hasKey m q = true ↔ q ∈ m.map Prod.fst := by
  induction m with
  | nil => simp [hasKey, lookupKey]
  | cons e rest ih =>
    by_cases he : e.1 = q
    · simp [hasKey, lookupKey, he]
    · simp [hasKey, lookupKey, he, Ne.symm he] at ih ⊢
      exact ih

theorem lookupKey_mem {α : Type} {m : List (String × α)} {q : String} {v : α}
    (h : lookupKey m q = some v) : (q, v) ∈ m := by
  induction m with
  | nil => simp [lookupKey] at h
  | cons e rest ih =>
    rcases e with ⟨a, b⟩
    by_cases he : a = q
    · simp [lookupKey, he] at h
      subst he
      subst h
      exact List.mem_cons_self _ _
    · simp [lookupKey, he] at h
      exact List.mem_cons_of_mem _ (ih h)

theorem nodup_keys_setKey {α : Type} (m : List (String × α)) (k : String) (v : α)
    (h : (m.map Prod.fst).Nodup) : ((setKey m k v).map Prod.fst).Nodup := by
  induction m with
  | nil => simp [setKey]
  | cons e rest ih =>
    by_cases he : e.1 = k
    · simpa [setKey, he] using h
    · simp only [List.map_cons, List.nodup_cons] at h
      have hcons : setKey (e :: rest) k v = e :: setKey rest k v := by
        simp [setKey, he]
      rw [hcons, List.map_cons, List.nodup_cons]
      refine ⟨?_, ih h.2⟩
      intro hmem
      rcases keys_setKey rest k v hmem with h' | h'
      · exact h.1 h'
      · exact he (by rw [h'])

theorem nodup_keys_delKey {α : Type} (m : List (String × α)) (k : String)
    (h : (m.map Prod.fst).Nodup) : ((delKey m k).map Prod.fst).Nodup := by
  induction m with
  | nil => simp [delKey]
  | cons e rest ih =>
    simp only [List.map_cons, List.nodup_cons] at h
    by_cases he : e.1 = k
    · simpa [delKey, List.filter_cons, he] using ih h.2
    · have hcons : delKey (e :: rest) k = e :: delKey rest k := by
        simp [delKey, List.filter_cons, he]
      rw [hcons, List.map_cons, List.nodup_cons]
      refine ⟨?_, ih h.2⟩
      intro hmem
      simp only [List.mem_map] at hmem
      obtain ⟨x, hx, hx1⟩ := hmem
      simp only [delKey] at hx
      exact h.1 (hx1 ▸ List.mem_map_of_mem Prod.fst (List.mem_of_mem_filter hx))

theorem hasKey_setKey {α : Type} {m : List (String × α)} {k q : String} {v : α}
    (h : hasKey (setKey m k v) q = true) : hasKey m q = true ∨ q = k := by
  by_cases hq : q = k
  · exact Or.inr hq
  · have hne : k ≠ q := fun hh => hq hh.symm
    left
    simpa [hasKey, lookupKey_setKey_ne m v hne] using h

theorem hasKey_delKey {α : Type} {m : List (String × α)} {k q : String}
    (h : hasKey (delKey m k) q = true) : hasKey m q = true ∧ q ≠ k := by
  by_cases hq : q = k
  · subst hq
    simp [hasKey, lookupKey_delKey] at h
  · refine ⟨?_, hq⟩
    simpa [hasKey, lookupKey_delKey, hq] using h

theorem diffStep_fst_cases (st : ColMap) (bk : Buckets) (n : String) (d : ColumnDef) :
    (diffStep st bk n d).1 = st ∨
    (∃ w, (diffStep st bk n d).1 = setKey st n w) ∨
    (∃ p, d.prevColumnName = some p ∧ n ≠ p ∧
      (diffStep st bk n d).1 = setKey (delKey st p) n d) := by
  cases h1 : lookupKey st n with
  | some cur =>
    by_cases h2 : cur = d
    · exact Or.inr (Or.inl ⟨{ cur with nextColumnName := some n }, by simp [diffStep, h1, h2]⟩)
    · exact Or.inr (Or.inl ⟨d, by simp [diffStep, h1, h2]⟩)
  | none =>
    cases h2 : d.prevColumnName with
    | none => exact Or.inr (Or.inl ⟨d, by simp [diffStep, h1, h2]⟩)
    | some p =>
      by_cases h3 : p = ""
      · exact Or.inr (Or.inl ⟨d, by simp [diffStep, h1, h2, h3]⟩)
      · cases h4 : lookupKey st p with
        | none => exact Or.inl (by simp [diffStep, h1, h2, h3, h4])
        | some w =>
          by_cases h5 : n = p
          · rw [h5] at h1
            rw [h1] at h4
            simp at h4
          · exact Or.inr (Or.inr ⟨p, rfl, h5, by simp [diffStep, h1, h2, h3, h4, h5]⟩)

theorem diffStep_hasKey {st : ColMap} {bk : Buckets} {n : String} {d : ColumnDef}
    {q : String} (h : hasKey (diffStep st bk n d).1 q = true) :
    hasKey st q = true ∨ q = n := by
  rcases diffStep_fst_cases st bk n d with hc | ⟨w, hc⟩ | ⟨p, hp, hnp, hc⟩
  · rw [hc] at h; exact Or.inl h
  · rw [hc] at h; exact hasKey_setKey h
  · rw [hc] at h
    rcases hasKey_setKey h with h' | h'
    · exact Or.inl (hasKey_delKey h').1
    · exact Or.inr h'

theorem diffStep_lookup_of_ne {st : ColMap} {bk : Buckets} {n : String} {d : ColumnDef}
    {q : String} {v : ColumnDef} (hq : q ≠ n)
    (h : lookupKey (diffStep st bk n d).1 q = some v) : lookupKey st q = some v := by
  rcases diffStep_fst_cases st bk n d with hc | ⟨w, hc⟩ | ⟨p, hp, hnp, hc⟩
  · rw [hc] at h; exact h
  · rw [hc, lookupKey_setKey_ne _ _ (fun hh => hq hh.symm)] at h; exact h
  · rw [hc, lookupKey_setKey_ne _ _ (fun hh => hq hh.symm), lookupKey_delKey] at h
    by_cases hqp : q = p
    · simp [hqp] at h
    · simpa [hqp] using h

theorem diffStep_nodup {st : ColMap} {bk : Buckets} {n : String} {d : ColumnDef}
    (h : (st.map Prod.fst).Nodup) : (((diffStep st bk n d).1).map Prod.fst).Nodup := by
  rcases diffStep_fst_cases st bk n d with hc | ⟨w, hc⟩ | ⟨p, hp, hnp, hc⟩
  · rw [hc]; exact h
  · rw [hc]; exact nodup_keys_setKey st n w h
  · rw [hc]; exact nodup_keys_setKey _ n d (nodup_keys_delKey st p h)

theorem diffStep_bucket_cases (st : ColMap) (bk : Buckets) (n : String) (d : ColumnDef) :
    (diffStep st bk n d).2 = bk ∨
    (diffStep st bk n d).2 = { bk with newCols := bk.newCols ++ [(n, d)] } ∨
    (diffStep st bk n d).2 = { bk with changeCols := bk.changeCols ++ [(n, d)] } ∨
    (diffStep st bk n d).2 = { bk with renameCols := bk.renameCols ++ [(n, d)] } := by
  cases h1 : lookupKey st n with
  | some cur =>
    by_cases h2 : cur = d
    · exact Or.inl (by simp [diffStep, h1, h2])
    · exact Or.inr (Or.inr (Or.inl (by simp [diffStep, h1, h2])))
  | none =>
    cases h2 : d.prevColumnName with
    | none => exact Or.inr (Or.inl (by simp [diffStep, h1, h2]))
    | some p =>
      by_cases h3 : p = ""
      · exact Or.inr (Or.inl (by simp [diffStep, h1, h2, h3]))
      · cases h4 : lookupKey st p with
        | none => exact Or.inl (by simp [diffStep, h1, h2, h3, h4])
        | some w =>
          by_cases h5 : n = p
          · rw [h5] at h1
            rw [h1] at h4
            simp at h4
          · exact Or.inr (Or.inr (Or.inr (by simp [diffStep, h1, h2, h3, h4, h5])))

theorem diffStep_rename_added {st : ColMap} {bk : Buckets} {n : String} {d : ColumnDef}
    {x : String × ColumnDef} (hx : x ∈ (diffStep st bk n d).2.renameCols) :
    x ∈ bk.renameCols ∨
    (x = (n, d) ∧ ∃ p, d.prevColumnName = some p ∧ n ≠ p ∧
      (diffStep st bk n d).1 = setKey (delKey st p) n d) := by
  cases h1 : lookupKey st n with
  | some cur =>
    by_cases h2 : cur = d
    · simp [diffStep, h1, h2] at hx; exact Or.inl hx
    · simp [diffStep, h1, h2] at hx; exact Or.inl hx
  | none =>
    cases h2 : d.prevColumnName with
    | none => simp [diffStep, h1, h2] at hx; exact Or.inl hx
    | some p =>
      by_cases h3 : p = ""
      · simp [diffStep, h1, h2, h3] at hx; exact Or.inl hx
      · cases h4 : lookupKey st p with
        | none => simp [diffStep, h1, h2, h3, h4] at hx; exact Or.inl hx
        | some w =>
          by_cases h5 : n = p
          · rw [h5] at h1
            rw [h1] at h4
            simp at h4
          · simp [diffStep, h1, h2, h3, h4, h5] at hx
            rcases hx with hx | hx
            · exact Or.inl hx
            · exact Or.inr ⟨by simp [hx], p, rfl, h5,
                by simp [diffStep, h1, h2, h3, h4, h5]⟩

theorem diffStep_change_added {st : ColMap} {bk : Buckets} {n : String} {d : ColumnDef}
    {x : String × ColumnDef} (hx : x ∈ (diffStep st bk n d).2.changeCols) :
    x ∈ bk.changeCols ∨
    (x = (n, d) ∧ ∃ cur, lookupKey st n = some cur ∧ cur ≠ d) := by
  cases h1 : lookupKey st n with
  | some cur =>
    by_cases h2 : cur = d
    · simp [diffStep, h1, h2] at hx; exact Or.inl hx
    · simp [diffStep, h1, h2] at hx
      rcases hx with hx | hx
      · exact Or.inl hx
      · exact Or.inr ⟨by simp [hx], cur, rfl, h2⟩
  | none =>
    cases h2 : d.prevColumnName with
    | none => simp [diffStep, h1, h2] at hx; exact Or.inl hx
    | some p =>
      by_cases h3 : p = ""
      · simp [diffStep, h1, h2, h3] at hx; exact Or.inl hx
      · cases h4 : lookupKey st p with
        | none => simp [diffStep, h1, h2, h3, h4] at hx; exact Or.inl hx
        | some w =>
          by_cases h5 : n = p
          · rw [h5] at h1
            rw [h1] at h4
            simp at h4
          · simp [diffStep, h1, h2, h3, h4, h5] at hx; exact Or.inl hx

theorem diffStep_mem_fst {st : ColMap} {bk : Buckets} {n : String} {d : ColumnDef}
    {e : String × ColumnDef} (he : e ∈ (diffStep st bk n d).1) :
    e ∈ st ∨ e = (n, d) ∨
    ∃ cur, lookupKey st n = some cur ∧ e = (n, { cur with nextColumnName := some n }) := by
  obtain ⟨a, b⟩ := e
  cases h1 : lookupKey st n with
  | some cur =>
    by_cases h2 : cur = d
    · have hst : (diffStep st bk n d).1 = setKey st n { cur with nextColumnName := some n } := by
        simp [diffStep, h1, h2]
      rw [hst] at he
      rcases mem_setKey he with h | h
      · exact Or.inr (Or.inr ⟨cur, rfl, h⟩)
      · exact Or.inl h
    · have hst : (diffStep st bk n d).1 = setKey st n d := by simp [diffStep, h1, h2]
      rw [hst] at he
      rcases mem_setKey he with h | h
      · exact Or.inr (Or.inl h)
      · exact Or.inl h
  | none =>
    cases h2 : d.prevColumnName with
    | none =>
      have hst : (diffStep st bk n d).1 = setKey st n d := by simp [diffStep, h1, h2]
      rw [hst] at he
      rcases mem_setKey he with h | h
      · exact Or.inr (Or.inl h)
      · exact Or.inl h
    | some p =>
      by_cases h3 : p = ""
      · have hst : (diffStep st bk n d).1 = setKey st n d := by simp [diffStep, h1, h2, h3]
        rw [hst] at he
        rcases mem_setKey he with h | h
        · exact Or.inr (Or.inl h)
        · exact Or.inl h
      · cases h4 : lookupKey st p with
        | none =>
          have hst : (diffStep st bk n d).1 = st := by simp [diffStep, h1, h2, h3, h4]
          rw [hst] at he
          exact Or.inl he
        | some w =>
          by_cases h5 : n = p
          · rw [h5] at h1
            rw [h1] at h4
            simp at h4
          · have hst : (diffStep st bk n d).1 = setKey (delKey st p) n d := by
              simp [diffStep, h1, h2, h3, h4, h5]
            rw [hst] at he
            rcases mem_setKey he with h | h
            · exact Or.inr (Or.inl h)
            · exact Or.inl (mem_delKey h).1

theorem getRawMigrations_error_iff (t : String) (cols : ColMap) (meta : Snapshot) :
    (getRawMigrations t cols meta).1 = Except.error "no change" ↔
      ∃ p, lookupKey meta t = some p ∧ mapEquiv p cols = true := by
  cases h : lookupKey meta t with
  | none => simp [getRawMigrations, h]
  | some p =>
    by_cases he : mapEquiv p cols = true
    · simp [getRawMigrations, h, he]
    · simp [getRawMigrations, h, he]

theorem getRawMigrations_entry_isSome (t : String) (cols : ColMap) (meta : Snapshot) :
    ∃ q, lookupKey (getRawMigrations t cols meta).2 t = some q := by
  cases h : lookupKey meta t with
  | none => exact ⟨cols, by simp [getRawMigrations, h, lookupKey_setKey_self]⟩
  | some p =>
    by_cases he : mapEquiv p cols = true
    · exact ⟨p, by simp [getRawMigrations, h, he]⟩
    · exact ⟨(diffBody t cols p).2,
        by simp [getRawMigrations, h, he, lookupKey_setKey_self]⟩

/-- C4: the diff raises `'no change'` exactly when the snapshot has an entry
for the table that is deep-equal to the current columns, and in that case it
produces no descriptors and leaves the snapshot untouched. -/
theorem c4_no_change_iff (t : String) (cols : ColMap) (meta : Snapshot) :
    ((getRawMigrations t cols meta).1 = Except.error "no change" ↔
       ∃ p, lookupKey meta t = some p ∧ mapEquiv p cols = true) ∧
    ((getRawMigrations t cols meta).1 = Except.error "no change" →
       (getRawMigrations t cols meta).2 = meta) := by
  refine ⟨getRawMigrations_error_iff t cols meta, ?_⟩
  intro h
  rcases (getRawMigrations_error_iff t cols meta).1 h with ⟨p, hp, he⟩
  simp [getRawMigrations, hp, he]

/-- Witness for C4 at a snapshot entry equal to the current columns. -/
theorem c4_no_change_iff_witness :
    ((getRawMigrations "t" exPriorA exMetaA).1 = Except.error "no change" ↔
       ∃ p, lookupKey exMetaA "t" = some p ∧ mapEquiv p exPriorA = true) ∧
    ((getRawMigrations "t" exPriorA exMetaA).1 = Except.error "no change" →
       (getRawMigrations "t" exPriorA exMetaA).2 = exMetaA) :=
  c4_no_change_iff "t" exPriorA exMetaA

/-- C5: a table with no prior snapshot entry yields exactly one `initial`
descriptor — a `createTable` of exactly the current columns up, a
`dropTable` down — and the snapshot entry becomes the current columns. -/
theorem c5_initial (t : String) (cols : ColMap) (meta : Snapshot)
    (h : lookupKey meta t = none) :
    getRawMigrations t cols meta =
      (Except.ok [{ label := "initial",
                    up := [Op.createTable t cols],
                    down := [Op.dropTable t] }],
       setKey meta t cols) ∧
    lookupKey (getRawMigrations t cols meta).2 t = some cols := by
  constructor
  · simp [getRawMigrations, h]
  · simp [getRawMigrations, h, lookupKey_setKey_self]

/-- Witness for C5 on an empty snapshot. -/
theorem c5_initial_witness :
    lookupKey ([] : Snapshot) "posts" = none ∧
    getRawMigrations "posts" exColsMail [] =
      (Except.ok [{ label := "initial",
                    up := [Op.createTable "posts" exColsMail],
                    down := [Op.dropTable "posts"] }],
       setKey [] "posts" exColsMail) :=
  ⟨by decide, (c5_initial "posts" exColsMail [] (by decide)).1⟩

/-- C1 fails on the code: with snapshot `{A}` and current `{A, X}` where X's
`prevColumnName` hint resolves to no prior entry, the `else if` chain of the
forward pass classifies X nowhere — the new-column bucket stays empty, X is
not inserted into the snapshot, and the run emits zero descriptors — whereas
the claim promises X in the new bucket and in the snapshot. -/
theorem c1_counterexample :
    (diffForward exColsAX exPriorA).2.newCols = [] ∧
    lookupKey (removalPass exColsAX (diffForward exColsAX exPriorA).1).1 "X" = none ∧
    (getRawMigrations "t" exColsAX exMetaA).1 = Except.ok [] ∧
    lookupKey (getRawMigrations "t" exColsAX exMetaA).2 "t" = some [("A", dStr)] := by
  decide

/-- C1 amended: a current column absent from the prior entry whose truthy
`prevColumnName` hint resolves to no prior entry (or to its own name) is
silently skipped: the forward step leaves both the snapshot state and every
bucket unchanged. -/
theorem c1_amended_skip (st : ColMap) (bk : Buckets) (n : String) (d : ColumnDef)
    (h1 : lookupKey st n = none)
    (h2 : ∃ p, d.prevColumnName = some p ∧ p ≠ "" ∧ (lookupKey st p = none ∨ p = n)) :
    diffStep st bk n d = (st, bk) := by
  obtain ⟨p, hp, hne, hcase⟩ := h2
  rcases hcase with hnone | hpn
  · simp [diffStep, h1, hp, hne, hnone]
  · subst hpn
    simp [diffStep, h1, hp, hne]

/-- Witness for the amended C1 on the `{A}` / `{A, X}` example. -/
theorem c1_amended_skip_witness :
    diffStep exPriorA emptyBuckets "X" dIntHintNope = (exPriorA, emptyBuckets) :=
  c1_amended_skip exPriorA emptyBuckets "X" dIntHintNope (by decide)
    ⟨"nope", by decide, by decide, Or.inl (by decide)⟩

/-- C3 fails on the code: after a first diff of `{A, X}` (X carrying an
unresolvable hint) against snapshot `{A}`, a second identical run does not
signal `'no change'` — it returns zero descriptors as an ordinary result,
because the first run left the snapshot short of X. -/
theorem c3_counterexample :
    (getRawMigrations "t" exColsAX (getRawMigrations "t" exColsAX exMetaA).2).1 =
      Except.ok [] ∧
    (getRawMigrations "t" exColsAX (getRawMigrations "t" exColsAX exMetaA).2).1 ≠
      Except.error "no change" := by
  decide

/-- C3 amended: after any first diff the snapshot has an entry for the
table, and an identical second run signals `'no change'` precisely when that
entry is deep-equal to the current columns (which the skip behaviour of the
forward pass can prevent). -/
theorem c3_amended_second_run (t : String) (cols : ColMap) (meta : Snapshot) :
    ∃ q, lookupKey (getRawMigrations t cols meta).2 t = some q ∧
      ((getRawMigrations t cols (getRawMigrations t cols meta).2).1 =
          Except.error "no change" ↔ mapEquiv q cols = true) := by
  obtain ⟨q, hq⟩ := getRawMigrations_entry_isSome t cols meta
  refine ⟨q, hq, ?_⟩
  rw [getRawMigrations_error_iff]
  constructor
  · rintro ⟨p, hp, he⟩
    have hpq : some q = some p := hq.symm.trans hp
    cases hpq
    exact he
  · intro he
    exact ⟨q, hq, he⟩

/-- Witness for the amended C3: an unchanged model reaches `'no change'` on
the repeat run exactly because the stored entry matches. -/
theorem c3_amended_second_run_witness :
    ∃ q, lookupKey (getRawMigrations "t" exPriorA exMetaA).2 "t" = some q ∧
      ((getRawMigrations "t" exPriorA (getRawMigrations "t" exPriorA exMetaA).2).1 =
          Except.error "no change" ↔ mapEquiv q exPriorA = true) :=
  c3_amended_second_run "t" exPriorA exMetaA

/-- C2 fails on the code: the rename example stores the current column
definition — `prevColumnName` included — in the snapshot, which is then
serialized to `meta.json` as-is. -/
theorem c2_counterexample :
    lookupKey (getRawMigrations "t" exColsMail exMetaEmail).2 "t" =
      some [("mail", dStrHintEmail)] ∧
    dStrHintEmail.prevColumnName = some "email" := by
  decide

theorem diffForwardAux_hasKey (cs : List (String × ColumnDef)) :
    ∀ (acc : ColMap × Buckets) (q : String),
      hasKey (diffForwardAux cs acc).1 q = true →
      hasKey acc.1 q = true ∨ q ∈ cs.map Prod.fst := by
  induction cs with
  | nil => intro acc q h; exact Or.inl h
  | cons e rest ih =>
    intro acc q h
    simp only [diffForwardAux] at h
    rcases ih _ q h with h' | h'
    · rcases diffStep_hasKey h' with h'' | h''
      · exact Or.inl h''
      · right; simp [h'']
    · right; simp [h']

theorem diffForwardAux_nodup (cs : List (String × ColumnDef)) :
    ∀ (acc : ColMap × Buckets), ((acc.1).map Prod.fst).Nodup →
      (((diffForwardAux cs acc).1).map Prod.fst).Nodup := by
  induction cs with
  | nil => intro acc h; exact h
  | cons e rest ih =>
    intro acc h
    simp only [diffForwardAux]
    exact ih _ (diffStep_nodup h)

theorem diffForwardAux_lookup_untouched (cs : List (String × ColumnDef)) :
    ∀ (acc : ColMap × Buckets) (q : String) (v : ColumnDef),
      q ∉ cs.map Prod.fst →
      lookupKey (diffForwardAux cs acc).1 q = some v →
      lookupKey acc.1 q = some v := by
  induction cs with
  | nil => intro acc q v _ h; exact h
  | cons e rest ih =>
    intro acc q v hq h
    simp only [diffForwardAux] at h
    have hq1 : q ≠ e.1 := fun hh => hq (by simp [hh])
    have hq2 : q ∉ rest.map Prod.fst := fun hh => hq (by simp [hh])
    exact diffStep_lookup_of_ne hq1 (ih _ q v hq2 h)

theorem diffForwardAux_rename_prev (cs : List (String × ColumnDef)) :
    ∀ (acc : ColMap × Buckets) (n p : String) (d : ColumnDef),
      (n, d) ∈ (diffForwardAux cs acc).2.renameCols →
      d.prevColumnName = some p →
      (n, d) ∈ acc.2.renameCols ∨ p ∈ cs.map Prod.fst ∨
        hasKey (diffForwardAux cs acc).1 p = false := by
  induction cs with
  | nil => intro acc n p d hmem _; exact Or.inl hmem
  | cons e rest ih =>
    intro acc n p d hmem hp
    simp only [diffForwardAux] at hmem ⊢
    rcases ih _ n p d hmem hp with h | h | h
    · rcases diffStep_rename_added h with h' | ⟨hx, p', hp', hnp, hst⟩
      · exact Or.inl h'
      · have hd : d = e.2 := congrArg Prod.snd hx
        have hpp : p = p' := by
          rw [← hd] at hp'
          exact Option.some.inj (hp.symm.trans hp')
        subst hpp
        have hkey : hasKey (diffStep acc.1 acc.2 e.1 e.2).1 p = false := by
          rw [hst]
          simp [hasKey, lookupKey_setKey_ne _ _ hnp, lookupKey_delKey]
        rcases Bool.eq_false_or_eq_true
            (hasKey (diffForwardAux rest (diffStep acc.1 acc.2 e.1 e.2)).1 p) with hb | hb
        · rcases diffForwardAux_hasKey rest _ p hb with hc | hc
          · rw [hkey] at hc; simp at hc
          · exact Or.inr (Or.inl (by simp [hc]))
        · exact Or.inr (Or.inr hb)
    · exact Or.inr (Or.inl (by simp [h]))
    · exact Or.inr (Or.inr h)

theorem diffStep_newKeys {st : ColMap} {bk : Buckets} {n : String} {d : ColumnDef}
    {q : String} (h : q ∈ ((diffStep st bk n d).2.newCols).map Prod.fst) :
    q ∈ (bk.newCols).map Prod.fst ∨ q = n := by
  rcases diffStep_bucket_cases st bk n d with hc | hc | hc | hc
  · rw [hc] at h; exact Or.inl h
  · rw [hc] at h
    simp only [List.map_append] at h
    rcases List.mem_append.mp h with h' | h'
    · exact Or.inl h'
    · simp at h'; exact Or.inr h'
  · rw [hc] at h; exact Or.inl h
  · rw [hc] at h; exact Or.inl h

theorem diffStep_renameKeys {st : ColMap} {bk : Buckets} {n : String} {d : ColumnDef}
    {q : String} (h : q ∈ ((diffStep st bk n d).2.renameCols).map Prod.fst) :
    q ∈ (bk.renameCols).map Prod.fst ∨ q = n := by
  rcases diffStep_bucket_cases st bk n d with hc | hc | hc | hc
  · rw [hc] at h; exact Or.inl h
  · rw [hc] at h; exact Or.inl h
  · rw [hc] at h; exact Or.inl h
  · rw [hc] at h
    simp only [List.map_append] at h
    rcases List.mem_append.mp h with h' | h'
    · exact Or.inl h'
    · simp at h'; exact Or.inr h'

theorem diffForwardAux_new_rename_disjoint (cs : List (String × ColumnDef)) :
    ∀ (acc : ColMap × Buckets),
      (cs.map Prod.fst).Nodup →
      (∀ x, x ∈ (acc.2.newCols).map Prod.fst → x ∉ cs.map Prod.fst) →
      (∀ x, x ∈ (acc.2.renameCols).map Prod.fst → x ∉ cs.map Prod.fst) →
      (∀ x, x ∈ (acc.2.newCols).map Prod.fst → x ∉ (acc.2.renameCols).map Prod.fst) →
      ∀ x, x ∈ ((diffForwardAux cs acc).2.newCols).map Prod.fst →
        x ∉ ((diffForwardAux cs acc).2.renameCols).map Prod.fst := by
  induction cs with
  | nil => intro acc _ _ _ hdisj x hx; exact hdisj x hx
  | cons e rest ih =>
    intro acc hnodup hnew hren hdisj x hx
    simp only [diffForwardAux] at hx ⊢
    have hnodup' : e.1 ∉ rest.map Prod.fst ∧ (rest.map Prod.fst).Nodup := by
      have := hnodup
      simp only [List.map_cons, List.nodup_cons] at this
      exact this
    refine ih _ hnodup'.2 ?_ ?_ ?_ x hx
    · intro y hy hyrest
      rcases diffStep_newKeys hy with h' | h'
      · exact hnew y h' (by simp [hyrest])
      · subst h'
        exact hnodup'.1 hyrest
    · intro y hy hyrest
      rcases diffStep_renameKeys hy with h' | h'
      · exact hren y h' (by simp [hyrest])
      · subst h'
        exact hnodup'.1 hyrest
    · intro y hyn hyr
      rcases diffStep_bucket_cases acc.1 acc.2 e.1 e.2 with hc | hc | hc | hc
      · rw [hc] at hyn hyr; exact hdisj y hyn hyr
      · rw [hc] at hyn hyr
        simp only [List.map_append] at hyn
        rcases List.mem_append.mp hyn with h' | h'
        · exact hdisj y h' hyr
        · simp at h'
          subst h'
          exact hren e.1 hyr (by simp)
      · rw [hc] at hyn hyr; exact hdisj y hyn hyr
      · rw [hc] at hyn hyr
        simp only [List.map_append] at hyr
        rcases List.mem_append.mp hyr with h' | h'
        · exact hdisj y hyn h'
        · simp at h'
          subst h'
          exact hnew e.1 hyn (by simp)

theorem removalAux_rem_mem (cols : ColMap) (E : List (String × ColumnDef)) :
    ∀ (st : ColMap) (rem : List String) (q : String),
      q ∈ (removalAux cols E st rem).2 →
      q ∈ rem ∨ (q ∈ E.map Prod.fst ∧ hasKey cols q = false) := by
  induction E with
  | nil => intro st rem q h; exact Or.inl h
  | cons e rest ih =>
    intro st rem q h
    obtain ⟨k, v⟩ := e
    by_cases hc : ¬ hasKey cols k = true ∧ ¬ nextPresent cols v = true
    · rw [show removalAux cols ((k, v) :: rest) st rem =
          removalAux cols rest (delKey st k) (rem ++ [k]) by
        simp only [removalAux]; rw [if_pos hc]] at h
      rcases ih _ _ q h with h' | h'
      · rcases List.mem_append.mp h' with h'' | h''
        · exact Or.inl h''
        · simp at h''
          subst h''
          refine Or.inr ⟨by simp, ?_⟩
          rcases Bool.eq_false_or_eq_true (hasKey cols q) with hb | hb
          · exact absurd hb hc.1
          · exact hb
      · exact Or.inr ⟨by simp [h'.1], h'.2⟩
    · rw [show removalAux cols ((k, v) :: rest) st rem =
          removalAux cols rest (setKey st k { v with nextColumnName := none }) rem by
        simp only [removalAux]; rw [if_neg hc]] at h
      rcases ih _ _ q h with h' | h'
      · exact Or.inl h'
      · exact Or.inr ⟨by simp [h'.1], h'.2⟩

/-- C6: a prior entry consumed by a successful rename match is never also
classified as removed in the same run, and a renamed column is never also in
the new bucket.  Instantiated at snapshot `{A}` and current
`{B: prevColumnName = A}` by the witness, this is the rename-disambiguation
property. -/
theorem c6_rename_consumes (cols prior : ColMap) (n p : String) (d : ColumnDef)
    (hnodup : (cols.map Prod.fst).Nodup)
    (hmem : (n, d) ∈ (diffForward cols prior).2.renameCols)
    (hp : d.prevColumnName = some p) :
    p ∉ (removalPass cols (diffForward cols prior).1).2 ∧
    n ∉ ((diffForward cols prior).2.newCols).map Prod.fst := by
  constructor
  · intro hrem
    rcases removalAux_rem_mem cols (diffForward cols prior).1 _ _ p hrem with h | h
    · simp at h
    · rcases diffForwardAux_rename_prev cols (prior, emptyBuckets) n p d hmem hp with
        h' | h' | h'
      · simp [emptyBuckets] at h'
      · have : hasKey cols p = true := (hasKey_iff_mem_keys cols p).mpr h'
        rw [this] at h
        simp at h
      · have htrue : hasKey (diffForwardAux cols (prior, emptyBuckets)).1 p = true :=
          (hasKey_iff_mem_keys _ p).mpr h.1
        rw [h'] at htrue
        simp at htrue
  · intro hnew
    exact diffForwardAux_new_rename_disjoint cols (prior, emptyBuckets) hnodup
      (by simp [emptyBuckets]) (by simp [emptyBuckets]) (by simp [emptyBuckets])
      n hnew (List.mem_map_of_mem Prod.fst hmem)

/-- Witness for C6: the `email` to `mail` rename example. -/
theorem c6_rename_consumes_witness :
    "email" ∉ (removalPass exColsMail (diffForward exColsMail exPriorEmail).1).2 ∧
    "mail" ∉ ((diffForward exColsMail exPriorEmail).2.newCols).map Prod.fst :=
  c6_rename_consumes exColsMail exPriorEmail "mail" "email" dStrHintEmail
    (by decide) (by decide) (by decide)

theorem removalAux_rem_mono (cols : ColMap) (E : List (String × ColumnDef)) :
    ∀ (st : ColMap) (rem : List String) (q : String), q ∈ rem →
      q ∈ (removalAux cols E st rem).2 := by
  induction E with
  | nil => intro st rem q h; exact h
  | cons e rest ih =>
    intro st rem q h
    obtain ⟨k, v⟩ := e
    by_cases hc : ¬ hasKey cols k = true ∧ ¬ nextPresent cols v = true
    · rw [show removalAux cols ((k, v) :: rest) st rem =
          removalAux cols rest (delKey st k) (rem ++ [k]) by
        simp only [removalAux]; rw [if_pos hc]]
      exact ih _ _ q (List.mem_append.mpr (Or.inl h))
    · rw [show removalAux cols ((k, v) :: rest) st rem =
          removalAux cols rest (setKey st k { v with nextColumnName := none }) rem by
        simp only [removalAux]; rw [if_neg hc]]
      exact ih _ _ q h

theorem removalAux_rem_complete (cols : ColMap) (E : List (String × ColumnDef)) :
    ∀ (st : ColMap) (rem : List String) (q : String) (v : ColumnDef),
      (q, v) ∈ E → hasKey cols q = false →
      (∀ e ∈ E, ∀ m, (e : String × ColumnDef).2.nextColumnName = some m → m = e.1) →
      q ∈ (removalAux cols E st rem).2 := by
  induction E with
  | nil => intro st rem q v h; simp at h
  | cons e rest ih =>
    intro st rem q v hmem hq hinv
    obtain ⟨k, w⟩ := e
    rcases List.mem_cons.mp hmem with h | h
    · have hk : q = k := congrArg Prod.fst h
      have hnp : nextPresent cols w = false := by
        cases hwn : w.nextColumnName with
        | none => simp [nextPresent, hwn]
        | some m =>
          have hm : m = k := hinv (k, w) (by simp) m hwn
          simp only [nextPresent, hwn, hm]
          rw [← hk]
          exact hq
      have hc : ¬ hasKey cols k = true ∧ ¬ nextPresent cols w = true := by
        constructor
        · rw [← hk]
          simp [hq]
        · simp [hnp]
      rw [show removalAux cols ((k, w) :: rest) st rem =
          removalAux cols rest (delKey st k) (rem ++ [k]) by
        simp only [removalAux]; rw [if_pos hc]]
      refine removalAux_rem_mono cols rest _ _ q ?_
      rw [hk]
      simp
    · by_cases hc : ¬ hasKey cols k = true ∧ ¬ nextPresent cols w = true
      · rw [show removalAux cols ((k, w) :: rest) st rem =
            removalAux cols rest (delKey st k) (rem ++ [k]) by
          simp only [removalAux]; rw [if_pos hc]]
        exact ih _ _ q v h hq (fun e he => hinv e (List.mem_cons_of_mem _ he))
      · rw [show removalAux cols ((k, w) :: rest) st rem =
            removalAux cols rest (setKey st k { w with nextColumnName := none }) rem by
          simp only [removalAux]; rw [if_neg hc]]
        exact ih _ _ q v h hq (fun e he => hinv e (List.mem_cons_of_mem _ he))

theorem removalAux_eq_simple (cols : ColMap) (E : List (String × ColumnDef)) :
    ∀ (st : ColMap) (rem : List String),
      (∀ e ∈ E, ∀ m, (e : String × ColumnDef).2.nextColumnName = some m → m = e.1) →
      removalAux cols E st rem = removalSimpleAux cols E st rem := by
  induction E with
  | nil => intro st rem _; rfl
  | cons e rest ih =>
    intro st rem hinv
    obtain ⟨k, v⟩ := e
    have hrest : ∀ e ∈ rest, ∀ m,
        (e : String × ColumnDef).2.nextColumnName = some m → m = e.1 :=
      fun e he => hinv e (List.mem_cons_of_mem _ he)
    by_cases hk : hasKey cols k = true
    · have h1 : ¬ (¬ hasKey cols k = true ∧ ¬ nextPresent cols v = true) :=
        fun hh => hh.1 hk
      have h2 : ¬ ¬ hasKey cols k = true := fun hh => hh hk
      rw [show removalAux cols ((k, v) :: rest) st rem =
            removalAux cols rest (setKey st k { v with nextColumnName := none }) rem by
          simp only [removalAux]; rw [if_neg h1],
        show removalSimpleAux cols ((k, v) :: rest) st rem =
            removalSimpleAux cols rest (setKey st k { v with nextColumnName := none }) rem by
          simp only [removalSimpleAux]; rw [if_neg h2]]
      exact ih _ _ hrest
    · have hkf : hasKey cols k = false := by
        rcases Bool.eq_false_or_eq_true (hasKey cols k) with hb | hb
        · exact absurd hb hk
        · exact hb
      have hnp : ¬ nextPresent cols v = true := by
        cases hwn : v.nextColumnName with
        | none => simp [nextPresent, hwn]
        | some m =>
          have hm : m = k := hinv (k, v) (by simp) m hwn
          simp only [nextPresent, hwn, hm]
          simp [hkf]
      have h1 : ¬ hasKey cols k = true ∧ ¬ nextPresent cols v = true := ⟨hk, hnp⟩
      rw [show removalAux cols ((k, v) :: rest) st rem =
            removalAux cols rest (delKey st k) (rem ++ [k]) by
          simp only [removalAux]; rw [if_pos h1],
        show removalSimpleAux cols ((k, v) :: rest) st rem =
            removalSimpleAux cols rest (delKey st k) (rem ++ [k]) by
          simp only [removalSimpleAux]; rw [if_pos hk]]
      exact ih _ _ hrest

theorem diffForwardAux_marker (cs : List (String × ColumnDef)) :
    ∀ (acc : ColMap × Buckets),
      (∀ e ∈ acc.1, ∀ m, (e : String × ColumnDef).2.nextColumnName = some m → m = e.1) →
      (∀ e ∈ cs, (e : String × ColumnDef).2.nextColumnName = none) →
      ∀ e ∈ (diffForwardAux cs acc).1, ∀ m,
        (e : String × ColumnDef).2.nextColumnName = some m → m = e.1 := by
  induction cs with
  | nil => intro acc hst _ e he; exact hst e he
  | cons x rest ih =>
    intro acc hst hcs e he
    simp only [diffForwardAux] at he
    refine ih _ ?_ (fun e' he' => hcs e' (List.mem_cons_of_mem _ he')) e he
    intro e' he' m hm
    rcases diffStep_mem_fst he' with h | h | ⟨cur, hcur, h⟩
    · exact hst e' h m hm
    · have hnone : e'.2.nextColumnName = none := by
        rw [h]
        exact hcs x (by simp)
      rw [hnone] at hm
      simp at hm
    · rw [h] at hm
      simp at hm
      rw [h]
      simp [hm]

theorem removalAux_marker_free (cols : ColMap) (E : List (String × ColumnDef)) :
    ∀ (st : ColMap) (rem : List String),
      ((st.map Prod.fst).Nodup) →
      (∀ e ∈ st, (e : String × ColumnDef).2.nextColumnName = none ∨ e ∈ E) →
      ∀ e ∈ (removalAux cols E st rem).1,
        (e : String × ColumnDef).2.nextColumnName = none := by
  induction E with
  | nil =>
    intro st rem _ hinv e he
    rcases hinv e he with h | h
    · exact h
    · simp at h
  | cons x rest ih =>
    intro st rem hnodup hinv
    obtain ⟨k, v⟩ := x
    by_cases hc : ¬ hasKey cols k = true ∧ ¬ nextPresent cols v = true
    · rw [show removalAux cols ((k, v) :: rest) st rem =
          removalAux cols rest (delKey st k) (rem ++ [k]) by
        simp only [removalAux]; rw [if_pos hc]]
      refine ih _ _ (nodup_keys_delKey st k hnodup) ?_
      intro e he
      obtain ⟨a, b⟩ := e
      have hmem := mem_delKey he
      rcases hinv (a, b) hmem.1 with h | h
      · exact Or.inl h
      · rcases List.mem_cons.mp h with h' | h'
        · exact absurd (congrArg Prod.fst h') hmem.2
        · exact Or.inr h'
    · rw [show removalAux cols ((k, v) :: rest) st rem =
          removalAux cols rest (setKey st k { v with nextColumnName := none }) rem by
        simp only [removalAux]; rw [if_neg hc]]
      refine ih _ _ (nodup_keys_setKey st k _ hnodup) ?_
      intro e he
      obtain ⟨a, b⟩ := e
      rcases mem_setKey_nodup hnodup he with h | ⟨hmem, hne⟩
      · left
        have hb : b = { v with nextColumnName := none } := congrArg Prod.snd h
        rw [hb]
      · rcases hinv (a, b) hmem with h' | h'
        · exact Or.inl h'
        · rcases List.mem_cons.mp h' with h'' | h''
          · exact absurd (congrArg Prod.fst h'') hne
          · exact Or.inr h''

/-- C8: for states reachable by the forward pass from a marker-free snapshot
entry, the next-name disjunct of the removal check is redundant: the original
and the simplified removal loops return the same remove classification and
the same final snapshot, and an entry is removed exactly when its own name is
absent from the current columns. -/
theorem c8_removal_redundant (cols prior : ColMap)
    (hpm : ∀ e ∈ prior, (e : String × ColumnDef).2.nextColumnName = none)
    (hcm : ∀ e ∈ cols, (e : String × ColumnDef).2.nextColumnName = none) :
    removalPass cols (diffForward cols prior).1 =
      removalSimplePass cols (diffForward cols prior).1 ∧
    (∀ q, q ∈ (removalPass cols (diffForward cols prior).1).2 ↔
      (q ∈ ((diffForward cols prior).1).map Prod.fst ∧ hasKey cols q = false)) := by
  have hmarker : ∀ e ∈ (diffForward cols prior).1, ∀ m,
      (e : String × ColumnDef).2.nextColumnName = some m → m = e.1 := by
    refine diffForwardAux_marker cols (prior, emptyBuckets) ?_ hcm
    intro e he m hm
    rw [hpm e he] at hm
    simp at hm
  constructor
  · exact removalAux_eq_simple cols _ _ _ hmarker
  · intro q
    constructor
    · intro h
      rcases removalAux_rem_mem cols _ _ _ q h with h' | h'
      · simp at h'
      · exact h'
    · rintro ⟨h1, h2⟩
      obtain ⟨e, he, hq⟩ := List.mem_map.mp h1
      obtain ⟨a, b⟩ := e
      have ha : a = q := hq
      subst ha
      exact removalAux_rem_complete cols _ _ _ a b he h2 hmarker

/-- Witness for C8 on the rename example. -/
theorem c8_removal_redundant_witness :
    removalPass exColsMail (diffForward exColsMail exPriorEmail).1 =
      removalSimplePass exColsMail (diffForward exColsMail exPriorEmail).1 :=
  (c8_removal_redundant exColsMail exPriorEmail (by decide) (by decide)).1

/-- C2 amended: after any diff run, no column definition stored in the
snapshot retains the transient `nextColumnName` marker (while
`prevColumnName`, being part of the extracted definition, may be stored). -/
theorem c2_amended_no_marker (t : String) (cols : ColMap) (meta : Snapshot)
    (hc : ∀ e ∈ cols, (e : String × ColumnDef).2.nextColumnName = none)
    (hm : ∀ p, lookupKey meta t = some p →
        (∀ e ∈ p, (e : String × ColumnDef).2.nextColumnName = none) ∧
          ((p.map Prod.fst).Nodup)) :
    ∀ q, lookupKey (getRawMigrations t cols meta).2 t = some q →
      ∀ e ∈ q, (e : String × ColumnDef).2.nextColumnName = none := by
  intro q hq e he
  cases hlook : lookupKey meta t with
  | none =>
    have h2 : lookupKey (getRawMigrations t cols meta).2 t = some cols := by
      simp [getRawMigrations, hlook, lookupKey_setKey_self]
    have hqc : q = cols := (Option.some.inj (h2.symm.trans hq)).symm
    exact hc e (hqc ▸ he)
  | some p =>
    by_cases heq : mapEquiv p cols = true
    · have h2 : lookupKey (getRawMigrations t cols meta).2 t = some p := by
        simp [getRawMigrations, hlook, heq]
      have hqp : q = p := (Option.some.inj (h2.symm.trans hq)).symm
      exact (hm p hlook).1 e (hqp ▸ he)
    · have h2 : lookupKey (getRawMigrations t cols meta).2 t =
          some (diffBody t cols p).2 := by
        simp [getRawMigrations, hlook, heq, lookupKey_setKey_self]
      have hqb : q = (diffBody t cols p).2 := (Option.some.inj (h2.symm.trans hq)).symm
      have hnodup : (((diffForward cols p).1).map Prod.fst).Nodup :=
        diffForwardAux_nodup cols (p, emptyBuckets) (hm p hlook).2
      have hem : e ∈ (diffBody t cols p).2 := hqb ▸ he
      exact removalAux_marker_free cols ((diffForward cols p).1)
        ((diffForward cols p).1) [] hnodup (fun e' he' => Or.inr he') e hem

/-- Witness for the amended C2 on the rename example. -/
theorem c2_amended_no_marker_witness :
    (("mail", dStrHintEmail) : String × ColumnDef).2.nextColumnName = none :=
  c2_amended_no_marker "t" exColsMail exMetaEmail (by decide)
    (by
      intro p hp
      have h2 : lookupKey exMetaEmail "t" = some exPriorEmail := by decide
      have hpe : p = exPriorEmail := Option.some.inj (hp.symm.trans h2)
      subst hpe
      exact ⟨by decide, by decide⟩)
    [("mail", dStrHintEmail)] (by decide) ("mail", dStrHintEmail) (by decide)

theorem diffForwardAux_change_prior (prior0 : ColMap) (cs : List (String × ColumnDef)) :
    ∀ (acc : ColMap × Buckets),
      (∀ k v, k ∈ cs.map Prod.fst → lookupKey acc.1 k = some v →
        lookupKey prior0 k = some v) →
      (cs.map Prod.fst).Nodup →
      ∀ n d, (n, d) ∈ (diffForwardAux cs acc).2.changeCols →
        (n, d) ∈ acc.2.changeCols ∨ ∃ d0, lookupKey prior0 n = some d0 ∧ d0 ≠ d := by
  induction cs with
  | nil => intro acc _ _ n d h; exact Or.inl h
  | cons e rest ih =>
    intro acc hinv hnodup n d h
    simp only [diffForwardAux] at h
    have hnodup' : e.1 ∉ rest.map Prod.fst ∧ (rest.map Prod.fst).Nodup := by
      have := hnodup
      simp only [List.map_cons, List.nodup_cons] at this
      exact this
    have hinv' : ∀ k v, k ∈ rest.map Prod.fst →
        lookupKey (diffStep acc.1 acc.2 e.1 e.2).1 k = some v →
        lookupKey prior0 k = some v := by
      intro k v hk hv
      have hkn : k ≠ e.1 := fun hh => hnodup'.1 (hh ▸ hk)
      exact hinv k v (by simp [hk]) (diffStep_lookup_of_ne hkn hv)
    rcases ih _ hinv' hnodup'.2 n d h with h' | h'
    · rcases diffStep_change_added h' with h'' | ⟨hx, cur, hcur, hneq⟩
      · exact Or.inl h''
      · right
        have hn : n = e.1 := congrArg Prod.fst hx
        have hd : d = e.2 := congrArg Prod.snd hx
        refine ⟨cur, ?_, ?_⟩
        · rw [hn]
          exact hinv e.1 cur (by simp) hcur
        · rw [hd]
          exact hneq
    · exact Or.inr h'

/-- C7: every down-operation payload in the produced migrations is taken
from the frozen pre-mutation snapshot entry: a `changeColumn` or `addColumn`
down references the column's original definition (which exists there), and a
`renameColumn` down carries exactly the frozen entry's value under the
restored name. -/
theorem c7_down_from_frozen (t : String) (cols : ColMap) (meta : Snapshot) (p0 : ColMap)
    (hs : lookupKey meta t = some p0)
    (hne : mapEquiv p0 cols = false)
    (hnodup : (cols.map Prod.fst).Nodup) :
    ∃ migs, (getRawMigrations t cols meta).1 = Except.ok migs ∧
      ∀ m ∈ migs, ∀ op ∈ m.down,
        (∀ c pay, op = Op.changeColumn t c pay →
            ∃ d0, lookupKey p0 c = some d0 ∧ pay = some d0) ∧
        (∀ a b pay, op = Op.renameColumn t a b pay → pay = lookupKey p0 b) ∧
        (∀ c pay, op = Op.addColumn t c pay →
            ∃ d0, lookupKey p0 c = some d0 ∧ pay = some d0) := by
  have hinv0 : ∀ k v, k ∈ cols.map Prod.fst →
      lookupKey (p0, emptyBuckets).1 k = some v → lookupKey p0 k = some v :=
    fun k v _ hv => hv
  have hchange : ∀ n d, (n, d) ∈ (diffForward cols p0).2.changeCols →
      ∃ d0, lookupKey p0 n = some d0 ∧ d0 ≠ d := by
    intro n d h
    rcases diffForwardAux_change_prior p0 cols (p0, emptyBuckets) hinv0 hnodup n d h with
      h' | h'
    · simp [emptyBuckets] at h'
    · exact h'
  have hremove : ∀ n, n ∈ (removalPass cols (diffForward cols p0).1).2 →
      ∃ d0, lookupKey p0 n = some d0 := by
    intro n h
    rcases removalAux_rem_mem cols _ _ _ n h with h' | h'
    · simp at h'
    · obtain ⟨h1, h2⟩ := h'
      have hn : n ∉ cols.map Prod.fst := by
        intro hh
        rw [(hasKey_iff_mem_keys cols n).mpr hh] at h2
        simp at h2
      have hpost : hasKey (diffForward cols p0).1 n = true :=
        (hasKey_iff_mem_keys _ n).mpr h1
      cases hv : lookupKey (diffForward cols p0).1 n with
      | none => simp [hasKey, hv] at hpost
      | some v =>
        exact ⟨v, diffForwardAux_lookup_untouched cols (p0, emptyBuckets) n v hn hv⟩
  refine ⟨(diffBody t cols p0).1, ?_, ?_⟩
  · simp [getRawMigrations, hs, hne]
  · intro m hm op hop
    simp only [diffBody] at hm
    rcases List.mem_append.mp hm with hm1 | hmR
    rotate_left
    · -- remove migration
      by_cases hE : ((removalPass cols (diffForward cols p0).1).2).isEmpty
      · simp [buildRemoveMig, hE] at hmR
      · simp only [buildRemoveMig, hE, Bool.false_eq_true, if_false,
          List.mem_singleton] at hmR
        rw [hmR] at hop
        simp only [List.mem_map] at hop
        obtain ⟨n, hn, rfl⟩ := hop
        refine ⟨?_, ?_, ?_⟩
        · intro c pay h; simp at h
        · intro a b pay h; simp at h
        · intro c pay h
          obtain ⟨d0, hd0⟩ := hremove n hn
          simp only [Op.addColumn.injEq, true_and] at h
          obtain ⟨hc, hpay⟩ := h
          subst hc
          subst hpay
          exact ⟨d0, hd0, hd0⟩
    rcases List.mem_append.mp hm1 with hm2 | hmRen
    rotate_left
    · -- rename migration
      by_cases hE : ((diffForward cols p0).2.renameCols).isEmpty
      · simp [buildRenameMig, hE] at hmRen
      · simp only [buildRenameMig, hE, Bool.false_eq_true, if_false,
          List.mem_singleton] at hmRen
        rw [hmRen] at hop
        simp only [List.mem_map] at hop
        obtain ⟨e, he, rfl⟩ := hop
        refine ⟨?_, ?_, ?_⟩
        · intro c pay h; simp at h
        · intro a b pay h
          simp only [Op.renameColumn.injEq, true_and] at h
          obtain ⟨ha, hb, hpay⟩ := h
          subst hb
          subst hpay
          rfl
        · intro c pay h; simp at h
    rcases List.mem_append.mp hm2 with hmN | hmC
    · -- new migration: its down-operations are bare removeColumn calls
      by_cases hE : ((diffForward cols p0).2.newCols).isEmpty
      · simp [buildNewMig, hE] at hmN
      · simp only [buildNewMig, hE, Bool.false_eq_true, if_false,
          List.mem_singleton] at hmN
        rw [hmN] at hop
        simp only [List.mem_map] at hop
        obtain ⟨e, he, rfl⟩ := hop
        refine ⟨?_, ?_, ?_⟩
        · intro c pay h; simp at h
        · intro a b pay h; simp at h
        · intro c pay h; simp at h
    · -- change migration
      by_cases hE : ((diffForward cols p0).2.changeCols).isEmpty
      · simp [buildChangeMig, hE] at hmC
      · simp only [buildChangeMig, hE, Bool.false_eq_true, if_false,
          List.mem_singleton] at hmC
        rw [hmC] at hop
        simp only [List.mem_map] at hop
        obtain ⟨e, he, rfl⟩ := hop
        refine ⟨?_, ?_, ?_⟩
        · intro c pay h
          obtain ⟨d0, hd0, _⟩ := hchange e.1 e.2 (by simpa using he)
          simp only [Op.changeColumn.injEq, true_and] at h
          obtain ⟨hc, hpay⟩ := h
          subst hc
          subst hpay
          exact ⟨d0, hd0, hd0⟩
        · intro a b pay h; simp at h
        · intro c pay h; simp at h

/-- Witness for C7: change `name`, rename `email` to `mail`, remove `age`. -/
theorem c7_down_from_frozen_witness :
    ∃ migs, (getRawMigrations "t" exCols3 exMeta3).1 = Except.ok migs ∧
      ∀ m ∈ migs, ∀ op ∈ m.down,
        (∀ c pay, op = Op.changeColumn "t" c pay →
            ∃ d0, lookupKey exPrior3 c = some d0 ∧ pay = some d0) ∧
        (∀ a b pay, op = Op.renameColumn "t" a b pay → pay = lookupKey exPrior3 b) ∧
        (∀ c pay, op = Op.addColumn "t" c pay →
            ∃ d0, lookupKey exPrior3 c = some d0 ∧ pay = some d0) :=
  c7_down_from_frozen "t" exCols3 exMeta3 exPrior3 (by decide) (by decide) (by decide)

theorem foldl_processAttr_preserve (attrs : List (String × AttrOptions)) :
    ∀ (acc : ColMap) (f : String) (c : ColumnDef),
      lookupKey acc f = some c →
      (∀ a ∈ attrs, ¬ (baseColumns.map Prod.fst).contains a.1 = true →
        (a : String × AttrOptions).2.typeName ≠ "VIRTUAL" → a.2.field = f →
        attrToCol a.2 = c) →
      lookupKey (attrs.foldl processAttr acc) f = some c := by
  induction attrs with
  | nil => intro acc f c h _; exact h
  | cons a rest ih =>
    intro acc f c h hall
    simp only [List.foldl_cons]
    refine ih _ f c ?_ (fun a' ha' => hall a' (List.mem_cons_of_mem _ ha'))
    by_cases h1 : (baseColumns.map Prod.fst).contains a.1 = true
    · have hpa : processAttr acc a = acc := by
        simp only [processAttr]
        rw [if_pos h1]
      rw [hpa]
      exact h
    · by_cases h2 : a.2.typeName = "VIRTUAL"
      · have hpa : processAttr acc a = acc := by
          simp only [processAttr]
          rw [if_neg h1, if_pos h2]
        rw [hpa]
        exact h
      · have hpa : processAttr acc a = setKey acc a.2.field (attrToCol a.2) := by
          simp only [processAttr]
          rw [if_neg h1, if_neg h2]
        rw [hpa]
        by_cases h3 : a.2.field = f
        · have hval : attrToCol a.2 = c := hall a (by simp) h1 h2 h3
          rw [h3, hval]
          exact lookupKey_setKey_self acc f c
        · rw [lookupKey_setKey_ne _ _ h3]
          exact h

/-- C9: a declared attribute outside the reserved implicit names whose type
is persisted appears in `getModelColumns` under its physical field name, and
its `allowNull` is `false` exactly when the attribute declares
`allowNull === false`; otherwise the output column has no `allowNull`. -/
theorem c9_extract (model : Model) (name : String) (opt : AttrOptions)
    (hmem : (name, opt) ∈ model.attributes)
    (hres : ¬ (baseColumns.map Prod.fst).contains name = true)
    (hty : opt.typeName ≠ "VIRTUAL")
    (hfield : ¬ (baseColumns.map Prod.fst).contains opt.field = true)
    (huniq : ∀ a ∈ model.attributes,
        ¬ (baseColumns.map Prod.fst).contains a.1 = true →
        (a : String × AttrOptions).2.typeName ≠ "VIRTUAL" →
        a.2.field = opt.field → attrToCol a.2 = attrToCol opt) :
    lookupKey (getModelColumns model) opt.field = some (attrToCol opt) ∧
    ((attrToCol opt).allowNull = some false ↔ opt.allowNull = some false) ∧
    (opt.allowNull ≠ some false → (attrToCol opt).allowNull = none) := by
  refine ⟨?_, ?_, ?_⟩
  · have hf : ¬ (opt.field = "id" ∨ opt.field = "createdAt" ∨ opt.field = "updatedAt" ∨
        opt.field = "deletedAt") := by
      intro hh
      apply hfield
      simp [baseColumns]
      exact hh
    have hne1 : "updatedAt" ≠ opt.field := fun hh => hf (Or.inr (Or.inr (Or.inl hh.symm)))
    have hne2 : "createdAt" ≠ opt.field := fun hh => hf (Or.inr (Or.inl hh.symm))
    have hne3 : "deletedAt" ≠ opt.field := fun hh => hf (Or.inr (Or.inr (Or.inr hh.symm)))
    obtain ⟨l1, l2, hsplit⟩ := List.append_of_mem hmem
    have hstep : ∀ acc0 : ColMap,
        lookupKey ((l1 ++ (name, opt) :: l2).foldl processAttr acc0) opt.field =
          some (attrToCol opt) := by
      intro acc0
      rw [List.foldl_append, List.foldl_cons]
      have hpa : processAttr (l1.foldl processAttr acc0) (name, opt) =
          setKey (l1.foldl processAttr acc0) opt.field (attrToCol opt) := by
        simp only [processAttr]
        rw [if_neg hres, if_neg hty]
      rw [hpa]
      refine foldl_processAttr_preserve l2 _ opt.field (attrToCol opt)
        (lookupKey_setKey_self _ _ _) ?_
      intro a ha h1 h2 h3
      refine huniq a ?_ h1 h2 h3
      rw [hsplit]
      exact List.mem_append_right _ (List.mem_cons_of_mem _ ha)
    simp only [getModelColumns]
    rw [hsplit]
    by_cases ht : model.options.timestamps = true
    · by_cases hpar : model.options.paranoid = true
      · simp only [ht, hpar, Bool.false_eq_true, if_true, if_false]
        rw [lookupKey_setKey_ne _ _ hne3, lookupKey_setKey_ne _ _ hne1,
          lookupKey_setKey_ne _ _ hne2]
        exact hstep _
      · simp only [ht, hpar, Bool.false_eq_true, if_true, if_false]
        rw [lookupKey_setKey_ne _ _ hne1, lookupKey_setKey_ne _ _ hne2]
        exact hstep _
    · by_cases hpar : model.options.paranoid = true
      · simp only [ht, hpar, Bool.false_eq_true, if_true, if_false]
        rw [lookupKey_setKey_ne _ _ hne3]
        exact hstep _
      · simp only [ht, hpar, Bool.false_eq_true, if_true, if_false]
        exact hstep _
  · constructor
    · intro h
      by_cases ha : opt.allowNull = some false
      · exact ha
      · simp [attrToCol, ha] at h
    · intro h
      simp [attrToCol, h]
  · intro h
    simp [attrToCol, h]

/-- Witness for C9 on a model with an `id` attribute and a nullable
`title` attribute. -/
theorem c9_extract_witness :
    lookupKey (getModelColumns exModel) exAttrTitle.field = some (attrToCol exAttrTitle) ∧
    ((attrToCol exAttrTitle).allowNull = some false ↔ exAttrTitle.allowNull = some false) ∧
    (exAttrTitle.allowNull ≠ some false → (attrToCol exAttrTitle).allowNull = none) :=
  c9_extract exModel "title" exAttrTitle (by decide) (by decide) (by decide)
    (by decide) (by decide)

theorem dedupFirst_aux_nodup (l : List (List Char)) :
    ∀ acc : List (List Char), acc.Nodup →
      (l.foldl (fun acc t => if t ∈ acc then acc else acc ++ [t]) acc).Nodup := by
  induction l with
  | nil => intro acc h; exact h
  | cons t rest ih =>
    intro acc h
    simp only [List.foldl_cons]
    by_cases ht : t ∈ acc
    · rw [if_pos ht]
      exact ih acc h
    · rw [if_neg ht]
      refine ih _ ?_
      simp [List.nodup_append, h, ht]

theorem dedupFirst_nodup (l : List (List Char)) : (dedupFirst l).Nodup :=
  dedupFirst_aux_nodup l [] List.nodup_nil

theorem mem_dedupFirst_aux (l : List (List Char)) :
    ∀ (acc : List (List Char)) (t : List Char),
      t ∈ l.foldl (fun acc t => if t ∈ acc then acc else acc ++ [t]) acc →
      t ∈ acc ∨ t ∈ l := by
  induction l with
  | nil => intro acc t h; exact Or.inl h
  | cons x rest ih =>
    intro acc t h
    simp only [List.foldl_cons] at h
    by_cases hx : x ∈ acc
    · rw [if_pos hx] at h
      rcases ih _ t h with h' | h'
      · exact Or.inl h'
      · exact Or.inr (List.mem_cons_of_mem _ h')
    · rw [if_neg hx] at h
      rcases ih _ t h with h' | h'
      · rcases List.mem_append.mp h' with h'' | h''
        · exact Or.inl h''
        · simp at h''
          exact Or.inr (by simp [h''])
      · exact Or.inr (List.mem_cons_of_mem _ h')

theorem mem_dedupFirst {l : List (List Char)} {t : List Char}
    (h : t ∈ dedupFirst l) : t ∈ l := by
  rcases mem_dedupFirst_aux l [] t h with h' | h'
  · simp at h'
  · exact h'

theorem isPrefixL_append_self (x y : List Char) : isPrefixL x (x ++ y) = true := by
  induction x with
  | nil => rfl
  | cons c cs ih => simp [isPrefixL, ih]

theorem isPrefixL_eq_append {pat s : List Char} (h : isPrefixL pat s = true) :
    s = pat ++ List.drop pat.length s := by
  induction pat generalizing s with
  | nil => simp
  | cons p ps ih =>
    cases s with
    | nil => simp [isPrefixL] at h
    | cons c cs =>
      simp only [isPrefixL, Bool.and_eq_true, decide_eq_true_eq] at h
      obtain ⟨hpc, hrest⟩ := h
      simp only [List.length_cons, List.drop_succ_cons, List.cons_append, hpc]
      exact congrArg (c :: ·) (ih hrest)

theorem isPrefixL_append_right {pat x : List Char} (z : List Char)
    (h : isPrefixL pat x = true) : isPrefixL pat (x ++ z) = true := by
  rw [isPrefixL_eq_append h, List.append_assoc]
  exact isPrefixL_append_self _ _

theorem containsSeq_nil {pat : List Char} (hp : pat ≠ []) :
    containsSeq pat [] = false := by
  cases pat with
  | nil => exact absurd rfl hp
  | cons p ps => rfl

theorem splitTokGo_ne_nil (pat : List Char) : ∀ (fuel : Nat) (s : List Char),
    splitTokGo pat fuel s ≠ [] := by
  intro fuel s
  match fuel, s with
  | 0, s => simp [splitTokGo]
  | fuel + 1, [] => simp [splitTokGo]
  | fuel + 1, c :: cs =>
    by_cases h : isPrefixL pat (c :: cs) = true
    · simp [splitTokGo, h]
    · cases hsp : splitTokGo pat fuel cs with
      | nil => simp [splitTokGo, h, hsp]
      | cons seg rest => simp [splitTokGo, h, hsp]

theorem joinWith_cons_head (sep : List Char) (c : Char) (x : List Char)
    (xs : List (List Char)) :
    joinWith sep ((c :: x) :: xs) = c :: joinWith sep (x :: xs) := by
  cases xs with
  | nil => rfl
  | cons y ys => simp [joinWith, List.cons_append]

theorem joinWith_head_append (sep x : List Char) (xs : List (List Char)) :
    ∃ z, joinWith sep (x :: xs) = x ++ z := by
  cases xs with
  | nil => exact ⟨[], by simp [joinWith]⟩
  | cons y ys => exact ⟨sep ++ joinWith sep (y :: ys), by simp [joinWith]⟩

theorem drop_length_pred {pat : List Char} (hp : pat ≠ []) (c : Char) (cs : List Char) :
    List.drop pat.length (c :: cs) = List.drop (pat.length - 1) cs := by
  cases pat with
  | nil => exact absurd rfl hp
  | cons p ps => simp

theorem splitTokGo_join (pat : List Char) (hp : pat ≠ []) :
    ∀ (fuel : Nat) (s : List Char), s.length ≤ fuel →
      joinWith pat (splitTokGo pat fuel s) = s := by
  intro fuel
  induction fuel with
  | zero =>
    intro s hs
    have hnil : s = [] := List.length_eq_zero.mp (Nat.le_zero.mp hs)
    subst hnil
    rfl
  | succ fuel ih =>
    intro s hs
    cases s with
    | nil => rfl
    | cons c cs =>
      have hcs : cs.length ≤ fuel := by
        simp only [List.length_cons] at hs
        omega
      by_cases h : isPrefixL pat (c :: cs) = true
      · rw [show splitTokGo pat (fuel + 1) (c :: cs) =
            [] :: splitTokGo pat fuel (List.drop (pat.length - 1) cs) by
          simp [splitTokGo, h]]
        obtain ⟨seg, rest, hL⟩ : ∃ seg rest,
            splitTokGo pat fuel (List.drop (pat.length - 1) cs) = seg :: rest := by
          cases hL : splitTokGo pat fuel (List.drop (pat.length - 1) cs) with
          | nil => exact absurd hL (splitTokGo_ne_nil pat _ _)
          | cons a b => exact ⟨a, b, rfl⟩
        have hdrop : (List.drop (pat.length - 1) cs).length ≤ fuel := by
          rw [List.length_drop]
          omega
        rw [hL, show joinWith pat ([] :: seg :: rest) =
            pat ++ joinWith pat (seg :: rest) by simp [joinWith], ← hL, ih _ hdrop]
        have hsplit := isPrefixL_eq_append h
        rw [drop_length_pred hp c cs] at hsplit
        exact hsplit.symm
      · obtain ⟨seg, rest, hL⟩ : ∃ seg rest, splitTokGo pat fuel cs = seg :: rest := by
          cases hL : splitTokGo pat fuel cs with
          | nil => exact absurd hL (splitTokGo_ne_nil pat _ _)
          | cons a b => exact ⟨a, b, rfl⟩
        rw [show splitTokGo pat (fuel + 1) (c :: cs) = (c :: seg) :: rest by
          simp [splitTokGo, h, hL], joinWith_cons_head, ← hL, ih _ hcs]

theorem splitTokGo_no_occ (pat : List Char) (hp : pat ≠ []) :
    ∀ (fuel : Nat) (s : List Char), s.length ≤ fuel →
      ∀ seg ∈ splitTokGo pat fuel s, containsSeq pat seg = false := by
  intro fuel
  induction fuel with
  | zero =>
    intro s hs seg hseg
    have hnil : s = [] := List.length_eq_zero.mp (Nat.le_zero.mp hs)
    subst hnil
    simp [splitTokGo] at hseg
    subst hseg
    exact containsSeq_nil hp
  | succ fuel ih =>
    intro s hs seg hseg
    cases s with
    | nil =>
      simp [splitTokGo] at hseg
      subst hseg
      exact containsSeq_nil hp
    | cons c cs =>
      have hcs : cs.length ≤ fuel := by
        simp only [List.length_cons] at hs
        omega
      by_cases h : isPrefixL pat (c :: cs) = true
      · rw [show splitTokGo pat (fuel + 1) (c :: cs) =
            [] :: splitTokGo pat fuel (List.drop (pat.length - 1) cs) by
          simp [splitTokGo, h]] at hseg
        rcases List.mem_cons.mp hseg with h1 | h1
        · subst h1
          exact containsSeq_nil hp
        · have hdrop : (List.drop (pat.length - 1) cs).length ≤ fuel := by
            rw [List.length_drop]
            omega
          exact ih _ hdrop seg h1
      · obtain ⟨seg0, rest, hL⟩ : ∃ seg0 rest, splitTokGo pat fuel cs = seg0 :: rest := by
          cases hL : splitTokGo pat fuel cs with
          | nil => exact absurd hL (splitTokGo_ne_nil pat _ _)
          | cons a b => exact ⟨a, b, rfl⟩
        rw [show splitTokGo pat (fuel + 1) (c :: cs) = (c :: seg0) :: rest by
          simp [splitTokGo, h, hL]] at hseg
        rcases List.mem_cons.mp hseg with h1 | h1
        · subst h1
          have hseg0 : containsSeq pat seg0 = false :=
            ih _ hcs seg0 (by rw [hL]; simp)
          have hpre : isPrefixL pat (c :: seg0) = false := by
            rcases Bool.eq_false_or_eq_true (isPrefixL pat (c :: seg0)) with hb | hb
            · -- a match at the head would have been a match on the whole text
              obtain ⟨z, hz⟩ := joinWith_head_append pat seg0 rest
              have hjoin : joinWith pat (seg0 :: rest) = cs := by
                rw [← hL]
                exact splitTokGo_join pat hp fuel cs hcs
              have hcz : c :: cs = (c :: seg0) ++ z := by
                rw [← hjoin, hz]
                rfl
              rw [hcz] at h
              exact absurd (isPrefixL_append_right z hb) h
            · exact hb
          simp [containsSeq, hpre, hseg0]
        · exact ih _ hcs seg (by rw [hL]; exact List.mem_cons_of_mem _ h1)

theorem replaceGo_eq_joinWith (pat rep : List Char) (_hp : pat ≠ []) :
    ∀ (fuel : Nat) (s : List Char), s.length ≤ fuel →
      replaceGo pat rep fuel s = joinWith rep (splitTokGo pat fuel s) := by
  intro fuel
  induction fuel with
  | zero =>
    intro s hs
    have hnil : s = [] := List.length_eq_zero.mp (Nat.le_zero.mp hs)
    subst hnil
    rfl
  | succ fuel ih =>
    intro s hs
    cases s with
    | nil => rfl
    | cons c cs =>
      have hcs : cs.length ≤ fuel := by
        simp only [List.length_cons] at hs
        omega
      by_cases h : isPrefixL pat (c :: cs) = true
      · rw [show replaceGo pat rep (fuel + 1) (c :: cs) =
            rep ++ replaceGo pat rep fuel (List.drop (pat.length - 1) cs) by
          simp [replaceGo, h]]
        rw [show splitTokGo pat (fuel + 1) (c :: cs) =
            [] :: splitTokGo pat fuel (List.drop (pat.length - 1) cs) by
          simp [splitTokGo, h]]
        obtain ⟨seg, rest, hL⟩ : ∃ seg rest,
            splitTokGo pat fuel (List.drop (pat.length - 1) cs) = seg :: rest := by
          cases hL : splitTokGo pat fuel (List.drop (pat.length - 1) cs) with
          | nil => exact absurd hL (splitTokGo_ne_nil pat _ _)
          | cons a b => exact ⟨a, b, rfl⟩
        have hdrop : (List.drop (pat.length - 1) cs).length ≤ fuel := by
          rw [List.length_drop]
          omega
        rw [hL, show joinWith rep ([] :: seg :: rest) =
            rep ++ joinWith rep (seg :: rest) by simp [joinWith], ← hL]
        exact congrArg (rep ++ ·) (ih _ hdrop)
      · obtain ⟨seg, rest, hL⟩ : ∃ seg rest, splitTokGo pat fuel cs = seg :: rest := by
          cases hL : splitTokGo pat fuel cs with
          | nil => exact absurd hL (splitTokGo_ne_nil pat _ _)
          | cons a b => exact ⟨a, b, rfl⟩
        rw [show replaceGo pat rep (fuel + 1) (c :: cs) =
            c :: replaceGo pat rep fuel cs by simp [replaceGo, h]]
        rw [show splitTokGo pat (fuel + 1) (c :: cs) = (c :: seg) :: rest by
          simp [splitTokGo, h, hL]]
        rw [joinWith_cons_head, ← hL]
        exact congrArg (c :: ·) (ih _ hcs)

theorem replaceAllL_spec (u t rep : List Char) (ht : t ≠ []) :
    joinWith t (splitTok u t) = u ∧
    replaceAllL u t rep = joinWith rep (splitTok u t) ∧
    ∀ seg ∈ splitTok u t, containsSeq t seg = false := by
  refine ⟨splitTokGo_join t ht u.length u (Nat.le_refl _), ?_,
    splitTokGo_no_occ t ht u.length u (Nat.le_refl _)⟩
  have hemp : t.isEmpty = false := by
    cases t with
    | nil => exact absurd rfl ht
    | cons a as => rfl
  rw [show replaceAllL u t rep = replaceGo t rep u.length u by
    simp [replaceAllL, hemp]]
  exact replaceGo_eq_joinWith t rep ht u.length u (Nat.le_refl _)

theorem matchTypeAt_token_shape {s tok rest : List Char}
    (h : matchTypeAt s = some (tok, rest)) :
    isPrefixL ("\"DataTypes".data) tok = true := by
  unfold matchTypeAt at h
  cases h0 : stripPrefixL ("\"type\":".data) s with
  | none =>
    rw [h0] at h
    exact absurd h (by simp)
  | some r0 =>
    rw [h0] at h
    dsimp only at h
    by_cases hws : (r0.takeWhile isWsChar).isEmpty = true
    · rw [if_pos hws] at h
      exact absurd h (by simp)
    · rw [if_neg hws] at h
      cases h1 : stripPrefixL ("\"DataTypes".data) (r0.dropWhile isWsChar) with
      | none =>
        rw [h1] at h
        exact absurd h (by simp)
      | some r2 =>
        rw [h1] at h
        dsimp only at h
        cases h2 : lastIdxOf '\"' (r2.takeWhile (fun c => c ≠ '\n')) with
        | none =>
          rw [h2] at h
          exact absurd h (by simp)
        | some j =>
          rw [h2] at h
          dsimp only at h
          by_cases hj : 1 ≤ j
          · rw [if_pos hj] at h
            have htok := congrArg Prod.fst (Option.some.inj h)
            dsimp only at htok
            rw [← htok]
            exact isPrefixL_append_self _ _
          · rw [if_neg hj] at h
            exact absurd h (by simp)

theorem collectGo_token_shape : ∀ (fuel : Nat) (s : List Char),
    ∀ t ∈ collectGo fuel s, isPrefixL ("\"DataTypes".data) t = true := by
  intro fuel
  induction fuel with
  | zero => intro s t ht; simp [collectGo] at ht
  | succ fuel ih =>
    intro s t ht
    cases s with
    | nil => simp [collectGo] at ht
    | cons c cs =>
      cases hm : matchTypeAt (c :: cs) with
      | none =>
        rw [show collectGo (fuel + 1) (c :: cs) = collectGo fuel cs by
          simp [collectGo, hm]] at ht
        exact ih cs t ht
      | some pr =>
        obtain ⟨tok, rest⟩ := pr
        rw [show collectGo (fuel + 1) (c :: cs) = tok :: collectGo fuel rest by
          simp [collectGo, hm]] at ht
        rcases List.mem_cons.mp ht with h1 | h1
        · subst h1
          exact matchTypeAt_token_shape hm
        · exact ih rest t h1

theorem foldl_replace_eq_joinWith (l : List (List Char)) :
    ∀ u : List Char, (∀ t ∈ l, t ≠ []) →
      l.foldl (fun acc t => replaceAllL acc t (stripQuotesL t)) u =
        l.foldl (fun acc t => joinWith (stripQuotesL t) (splitTok acc t)) u := by
  induction l with
  | nil => intro u _; rfl
  | cons t rest ih =>
    intro u hl
    simp only [List.foldl_cons]
    rw [(replaceAllL_spec u t (stripQuotesL t) (hl t (by simp))).2.1]
    exact ih _ (fun t' ht' => hl t' (List.mem_cons_of_mem _ ht'))

/-- C10: `formatMigrationContent` applies, once per distinct collected
type-tag token (the rewrite list is duplicate-free and each entry is a
quoted `DataTypes` token, hence nonempty), a whole-text rewrite of that
token: the current text splits into alternating non-matching segments —
kept verbatim, none containing the token — and token occurrences, and the
rewrite re-joins the very same segments with the quote-stripped identifier,
so every occurrence is rewritten and all other text is unchanged.  A text
with no collected token is returned as is, and the worked example rewrites
both occurrences of its single distinct token while keeping unrelated
quoted text. -/
theorem c10_format :
    (∀ s : String, (dedupFirst (collectTypes s.data)).Nodup) ∧
    (∀ s : String, ∀ t ∈ dedupFirst (collectTypes s.data),
        isPrefixL ("\"DataTypes".data) t = true ∧ t ≠ []) ∧
    (∀ (u t rep : List Char), t ≠ [] →
        joinWith t (splitTok u t) = u ∧
        replaceAllL u t rep = joinWith rep (splitTok u t) ∧
        ∀ seg ∈ splitTok u t, containsSeq t seg = false) ∧
    (∀ s : String, (formatMigrationContent s).data =
        (dedupFirst (collectTypes s.data)).foldl
          (fun acc t => joinWith (stripQuotesL t) (splitTok acc t)) s.data) ∧
    (∀ s : String, collectTypes s.data = [] → formatMigrationContent s = s) ∧
    collectTypes exContent.data = [exToken, exToken] ∧
    dedupFirst (collectTypes exContent.data) = [exToken] ∧
    formatMigrationContent exContent = exFormatted := by
  have htok : ∀ s : String, ∀ t ∈ dedupFirst (collectTypes s.data),
      isPrefixL ("\"DataTypes".data) t = true ∧ t ≠ [] := by
    intro s t ht
    have h1 := collectGo_token_shape s.data.length s.data t (mem_dedupFirst ht)
    refine ⟨h1, ?_⟩
    intro hnil
    rw [hnil] at h1
    exact absurd h1 (by decide)
  refine ⟨fun s => dedupFirst_nodup _, htok,
    fun u t rep ht => replaceAllL_spec u t rep ht, ?_, ?_, by decide, by decide, by decide⟩
  · intro s
    have hdef : (formatMigrationContent s).data =
        (dedupFirst (collectTypes s.data)).foldl
          (fun acc t => replaceAllL acc t (stripQuotesL t)) s.data := rfl
    rw [hdef]
    exact foldl_replace_eq_joinWith _ s.data (fun t ht => (htok s t ht).2)
  · intro s h
    have hd : dedupFirst (collectTypes s.data) = [] := by
      rw [h]
      rfl
    simp only [formatMigrationContent, hd, List.foldl_nil]

/-- Witness for C10: a text with no type token is left unchanged, and the
single-token rewrite specification holds at a concrete token. -/
theorem c10_format_witness :
    formatMigrationContent "abc" = "abc" ∧
    replaceAllL exContent.data exToken (stripQuotesL exToken) =
      joinWith (stripQuotesL exToken) (splitTok exContent.data exToken) :=
  ⟨c10_format.2.2.2.2.1 "abc" (by decide),
   (c10_format.2.2.1 exContent.data exToken (stripQuotesL exToken) (by decide)).2.1⟩

end MakeMigrations
